import Mathlib

/-!
Verification development for the prebake repository.

Each component of the repository that the claims touch is shallowly
embedded as executable Lean definitions translated from the TypeScript
source:

* `MS`  — `ModuleSet.set` / `ModuleSet.get` and stage comparison
          (src/module-set.ts, src/module.ts).
* `FC`  — `fetcherChain` and the `NOT_UNDERSTOOD` sentinel (fetcher).
* `G`   — the `Gatherer` new-module handler and its fetch dedup set
          (src/gatherer.ts).
* `FIE` — `stageFromComments`, `destructure` and the CommonJS
          `require` visitor of `findImportsExports`
          (src/rewriter/find-imports-exports.ts).
* `OG`  — the `ObjectGraph` recorder: `getProxy_`, the proxy traps and
          the global sequence counter (src/replayable.ts).
* `RW`  — the `Rewriter` completion walk `checkCompleted`
          (src/rewriter/rewriter.ts) together with a declarative
          completability predicate written from the specification.
-/

namespace MS

/-- Diagnostics (`CassandraEvent`s) are opaque to `ModuleSet.set`; we model
them by an identifier. -/
abbrev Diag := Nat

/-- The lifecycle stage of a module, i.e. which of the `Module` subclasses
of src/module.ts the object is an instance of.  `instanceof ErrorModule`
becomes `stage = .error`. -/
inductive Stage where
  | unresolved
  | resolved
  | rewritten
  | output
  | error
deriving DecidableEq, Repr

/-- The `stageOrder` map of src/module.ts:
`UnresolvedModule ↦ 0, ResolvedModule ↦ 1, RewrittenModule ↦ 2,
OutputModule ↦ 3, ErrorModule ↦ 1000000000`. -/
def stageNum : Stage → Nat
  | .unresolved => 0
  | .resolved => 1
  | .rewritten => 2
  | .output => 3
  | .error => 1000000000

/-- The fields of a `Module` that `ModuleSet.set` / `ModuleSet.get`
inspect.  `ref` models JavaScript object identity (`===`); `absHref` is
`id.abs.href`; `canonHref` is `id.canon ? id.canon.href : null`;
`baseCanonHref` is `metadata.base.canon.href`; `errors` is the
`errors` field (`null` for non-error modules). -/
structure Mod where
  ref : Nat
  stage : Stage
  absHref : String
  canonHref : Option String
  baseCanonHref : String
  errors : Option (List Diag)
deriving DecidableEq, Repr

/-- `compareModuleStage(a, b) <= 0` of src/module.ts, i.e. a is at the
same or an earlier stage than b. -/
def stageLe (a b : Mod) : Prop := stageNum a.stage ≤ stageNum b.stage

instance (a b : Mod) : Decidable (stageLe a b) := by
  unfold stageLe; infer_instance

/-- JSON string escaping as performed by `JSON.stringify` on the key
objects built in `ModuleSet.set`; only the quote and backslash escapes
can occur in URL hrefs. -/
def jsonEscapeChar (c : Char) : String :=
  if c = '"' then "\\\"" else if c = '\\' then "\\\\" else String.singleton c

def jsonStr (s : String) : String :=
  "\"" ++ String.join (s.data.map jsonEscapeChar) ++ "\""

/-- `JSON.stringify({ target: newModule.id.abs.href,
source: newModule.metadata.base.canon.href })` — the key under which
`ModuleSet.set` stores a module's absolute identity. -/
def unresolvedKeyOf (m : Mod) : String :=
  "\x7b\"target\":" ++ jsonStr m.absHref ++ ",\"source\":" ++ jsonStr m.baseCanonHref ++ "\x7d"

/-- `ModuleId.key()`: the canonical href when present
(`CanonModuleId.key`), the absolute href otherwise
(`TentativeModuleId.key`). -/
def idKey (m : Mod) : String := m.canonHref.getD m.absHref

/-- The `idToModule` map, as an association list. -/
abbrev Store := List (String × Mod)

def slookup : Store → String → Option Mod
  | [], _ => none
  | (k, v) :: t, key => if k = key then some v else slookup t key

/-- `Map.prototype.set`: replace an existing binding in place, append a
new one. -/
def sinsert : Store → String → Mod → Store
  | [], key, v => [(key, v)]
  | (k, w) :: t, key, v =>
    if k = key then (key, v) :: t else (k, w) :: sinsert t key v

/-- `ErrorModule.maybeMergeErrors(...modules)` of src/module.ts: append
the `errors` of every distinct (by identity) non-null argument module to
the receiver's error list.  The `merged` set is modelled by a list of
seen `ref`s, seeded with the receiver. -/
def maybeMergeErrors (e : Mod) (ms : List (Option Mod)) : Mod :=
  let step := fun (acc : List Nat × List Diag) (m? : Option Mod) =>
    match m? with
    | none => acc
    | some m =>
      if m.ref ∈ acc.1 then acc
      else (m.ref :: acc.1, acc.2 ++ m.errors.getD [])
  let r := ms.foldl step ([e.ref], [])
  { e with errors := some (e.errors.getD [] ++ r.2) }

/-- `ModuleSet.set(newModule)` of src/module-set.ts (the store update
and the returned `finalModule`; promotion-notification dispatch does not
touch the store or the return value and is not modelled).  Returns the
updated `idToModule` store and `finalModule`. -/
def msSet (st : Store) (m : Mod) : Store × Mod :=
  let uKey := unresolvedKeyOf m
  let oldU := slookup st uKey
  let oldR := match m.canonHref with
    | some k => slookup st k
    | none => none
  let fin : Mod :=
    match oldR with
    | some r =>
      if r.stage = .error then maybeMergeErrors r [some m, oldU]
      else
        match oldU with
        | some u =>
          if u.stage = .error then maybeMergeErrors u [some m]
          else if m.stage = .error then m
          else if stageNum m.stage ≤ stageNum r.stage then r
          else if stageNum m.stage ≤ stageNum u.stage then u
          else m
        | none =>
          if m.stage = .error then m
          else if stageNum m.stage ≤ stageNum r.stage then r
          else m
    | none =>
      match oldU with
      | some u =>
        if u.stage = .error then maybeMergeErrors u [some m]
        else if m.stage = .error then m
        else if stageNum m.stage ≤ stageNum u.stage then u
        else m
      | none => m
  let st1 := match m.canonHref with
    | some k => sinsert st k fin
    | none => st
  let st2 := sinsert st1 uKey fin
  (st2, fin)

/-- `ModuleSet.get(moduleId)`: look the key up in `idToModule`. -/
def msGet (st : Store) (key : String) : Option Mod := slookup st key

theorem slookup_sinsert_self (st : Store) (k : String) (v : Mod) :
    slookup (sinsert st k v) k = some v := by
  induction st with
  | nil => simp [sinsert, slookup]
  | cons h t ih =>
    obtain ⟨k', w⟩ := h
    by_cases hk : k' = k
    · subst hk; simp [sinsert, slookup]
    · simp [sinsert, slookup, hk, ih]

theorem slookup_sinsert_ne (st : Store) (k k2 : String) (v : Mod) (h : k ≠ k2) :
    slookup (sinsert st k v) k2 = slookup st k2 := by
  induction st with
  | nil => simp [sinsert, slookup, h]
  | cons hd t ih =>
    obtain ⟨k', w⟩ := hd
    by_cases hk : k' = k
    · subst hk; simp [sinsert, slookup, h]
    · simp [sinsert, slookup, hk, ih]

theorem slookup_double_sinsert (st : Store) (k1 k2 : String) (v : Mod) :
    slookup (sinsert (sinsert st k1 v) k2 v) k1 = some v := by
  by_cases h : k2 = k1
  · subst h; exact slookup_sinsert_self _ _ _
  · rw [slookup_sinsert_ne _ k2 k1 v h]; exact slookup_sinsert_self _ _ _

theorem maybeMergeErrors_stage (e : Mod) (ms : List (Option Mod)) :
    (maybeMergeErrors e ms).stage = e.stage := rfl

theorem maybeMergeErrors_ref (e : Mod) (ms : List (Option Mod)) :
    (maybeMergeErrors e ms).ref = e.ref := rfl

theorem stageNum_le_error (s : Stage) : stageNum s ≤ stageNum .error := by
  cases s <;> simp [stageNum]

/-- A module used in counterexamples: a fresh `UnresolvedModule` with a
tentative (canon-less) id, as put on the bus by `ModuleSet.fetch`. -/
def mTent : Mod :=
  { ref := 0, stage := .unresolved, absHref := "file:///a.js",
    canonHref := none, baseCanonHref := "file:///dir/base.js", errors := none }

/-- **C1, counterexample.**  The claim states that immediately after
`put(m)` a `get(m.id)` returns a module whose stage is ≥ `stage(m)`.
For a module with a tentative id this fails: `ModuleSet.set` stores the
module under the key `JSON.stringify({target, source})` while
`get(m.id)` looks up `TentativeModuleId.key() = id.abs.href`, so the
lookup misses and `get` returns null. -/
theorem c1_put_get_counterexample :
    msGet (msSet [] mTent).1 (idKey mTent) = none ∧
    ¬ ∃ r, msGet (msSet [] mTent).1 (idKey mTent) = some r ∧
        stageNum mTent.stage ≤ stageNum r.stage := by
  refine ⟨by decide, ?_⟩
  rintro ⟨r, hr, -⟩
  rw [show msGet (msSet [] mTent).1 (idKey mTent) = none from by decide] at hr
  exact Option.noConfusion hr

/-- **C1, amended.**  For a module `m` whose id is canonical, immediately
after `put(m)` a `get(m.id)` returns the module `put` returned, that
module's stage is ≥ `stage(m)`, and it is `m` itself unless an error
merge occurred (the result is an error module) or a slot already held a
module at a later-or-equal stage (that existing module is kept). -/
theorem c1_put_get_amended (st : Store) (m : Mod) (c : String)
    (hc : m.canonHref = some c) :
    msGet (msSet st m).1 (idKey m) = some (msSet st m).2 ∧
    stageNum m.stage ≤ stageNum (msSet st m).2.stage ∧
    ((msSet st m).2 = m ∨ (msSet st m).2.stage = .error ∨
      ∃ old, (slookup st c = some old ∨ slookup st (unresolvedKeyOf m) = some old) ∧
        (msSet st m).2 = old ∧ stageNum m.stage ≤ stageNum old.stage) := by
  have hkey : idKey m = c := by simp [idKey, hc]
  have hfst : (msSet st m).1
      = sinsert (sinsert st c (msSet st m).2) (unresolvedKeyOf m) (msSet st m).2 := by
    simp only [msSet, hc]
  have hget : msGet (msSet st m).1 (idKey m) = some (msSet st m).2 := by
    rw [hfst, hkey]
    exact slookup_double_sinsert st c (unresolvedKeyOf m) (msSet st m).2
  refine ⟨hget, ?_⟩
  have hsnd : (msSet st m).2 =
      (match slookup st c with
        | some r =>
          if r.stage = .error then maybeMergeErrors r [some m, slookup st (unresolvedKeyOf m)]
          else
            match slookup st (unresolvedKeyOf m) with
            | some u =>
              if u.stage = .error then maybeMergeErrors u [some m]
              else if m.stage = .error then m
              else if stageNum m.stage ≤ stageNum r.stage then r
              else if stageNum m.stage ≤ stageNum u.stage then u
              else m
            | none =>
              if m.stage = .error then m
              else if stageNum m.stage ≤ stageNum r.stage then r
              else m
        | none =>
          match slookup st (unresolvedKeyOf m) with
          | some u =>
            if u.stage = .error then maybeMergeErrors u [some m]
            else if m.stage = .error then m
            else if stageNum m.stage ≤ stageNum u.stage then u
            else m
          | none => m) := by
    simp only [msSet, hc]
  rw [hsnd]
  rcases hR : slookup st c with _ | r
  · rcases hU : slookup st (unresolvedKeyOf m) with _ | u
    · exact ⟨le_refl _, Or.inl rfl⟩
    · by_cases hue : u.stage = .error
      · refine ⟨?_, Or.inr (Or.inl ?_)⟩
        · simp [hue, maybeMergeErrors_stage, stageNum_le_error]
        · simp [hue, maybeMergeErrors_stage]
      · by_cases hme : m.stage = .error
        · simp [hue, hme]
        · by_cases hcmp : stageNum m.stage ≤ stageNum u.stage
          · refine ⟨?_, Or.inr (Or.inr ⟨u, Or.inr rfl, ?_, hcmp⟩)⟩ <;>
              simp [hue, hme, hcmp]
          · simp [hue, hme, hcmp]
  · by_cases hre : r.stage = .error
    · refine ⟨?_, Or.inr (Or.inl ?_)⟩
      · simp [hre, maybeMergeErrors_stage, stageNum_le_error]
      · simp [hre, maybeMergeErrors_stage]
    · rcases hU : slookup st (unresolvedKeyOf m) with _ | u
      · by_cases hme : m.stage = .error
        · simp [hre, hme]
        · by_cases hcmp : stageNum m.stage ≤ stageNum r.stage
          · refine ⟨?_, Or.inr (Or.inr ⟨r, Or.inl rfl, ?_, hcmp⟩)⟩ <;>
              simp [hre, hme, hcmp]
          · simp [hre, hme, hcmp]
      · by_cases hue : u.stage = .error
        · refine ⟨?_, Or.inr (Or.inl ?_)⟩
          · simp [hre, hue, maybeMergeErrors_stage, stageNum_le_error]
          · simp [hre, hue, maybeMergeErrors_stage]
        · by_cases hme : m.stage = .error
          · simp [hre, hue, hme]
          · by_cases hcmpr : stageNum m.stage ≤ stageNum r.stage
            · refine ⟨?_, Or.inr (Or.inr ⟨r, Or.inl rfl, ?_, hcmpr⟩)⟩ <;>
                simp [hre, hue, hme, hcmpr]
            · by_cases hcmpu : stageNum m.stage ≤ stageNum u.stage
              · refine ⟨?_, Or.inr (Or.inr ⟨u, Or.inr rfl, ?_, hcmpu⟩)⟩ <;>
                  simp [hre, hue, hme, hcmpr, hcmpu]
              · simp [hre, hue, hme, hcmpr, hcmpu]

/-- A canonical `ResolvedModule` used as witness input. -/
def mCanon : Mod :=
  { ref := 1, stage := .resolved, absHref := "file:///x.js",
    canonHref := some "file:///real/x.js", baseCanonHref := "file:///dir/base.js",
    errors := none }

/-- Witness for `c1_put_get_amended` at a concrete canonical module and
the empty store. -/
theorem c1_put_get_amended_witness :
    mCanon.canonHref = some "file:///real/x.js" ∧
    (msGet (msSet [] mCanon).1 (idKey mCanon) = some (msSet [] mCanon).2 ∧
     stageNum mCanon.stage ≤ stageNum (msSet [] mCanon).2.stage ∧
     ((msSet [] mCanon).2 = mCanon ∨ (msSet [] mCanon).2.stage = .error ∨
       ∃ old, (slookup [] "file:///real/x.js" = some old ∨
               slookup [] (unresolvedKeyOf mCanon) = some old) ∧
         (msSet [] mCanon).2 = old ∧ stageNum mCanon.stage ≤ stageNum old.stage)) :=
  ⟨rfl, c1_put_get_amended [] mCanon "file:///real/x.js" rfl⟩

theorem msSet_store_lookup_u (st : Store) (m : Mod) :
    slookup (msSet st m).1 (unresolvedKeyOf m) = some (msSet st m).2 := by
  rcases hcanon : m.canonHref with _ | c <;>
    simp only [msSet, hcanon] <;> exact slookup_sinsert_self ..

theorem msSet_store_lookup_other (st : Store) (m : Mod) (k : String)
    (hku : k ≠ unresolvedKeyOf m) (hkc : m.canonHref ≠ some k) :
    slookup (msSet st m).1 k = slookup st k := by
  rcases hcanon : m.canonHref with _ | c
  · simp only [msSet, hcanon]
    exact slookup_sinsert_ne _ _ _ _ (fun h => hku h.symm)
  · have hck : c ≠ k := fun h => hkc (by rw [hcanon, h])
    simp only [msSet, hcanon]
    rw [slookup_sinsert_ne _ _ _ _ (fun h => hku h.symm)]
    exact slookup_sinsert_ne _ _ _ _ hck

theorem msSet_store_lookup_c (st : Store) (m : Mod) (c : String)
    (hc : m.canonHref = some c) :
    slookup (msSet st m).1 c = some (msSet st m).2 := by
  simp only [msSet, hc]
  exact slookup_double_sinsert ..

/-- If the slot under the canonical key holds an error module, `set`
returns it with merged errors (property 1 of the source comments). -/
theorem msSet_fin_error_of_oldR (st : Store) (m : Mod) (c : String) (e : Mod)
    (hc : m.canonHref = some c) (he : slookup st c = some e) (hs : e.stage = .error) :
    (msSet st m).2 = maybeMergeErrors e [some m, slookup st (unresolvedKeyOf m)] := by
  simp [msSet, hc, he, hs]

/-- If the slot under the pair key holds an error module, `set` returns
an error module whatever the canonical slot holds. -/
theorem msSet_fin_error_of_oldU (st : Store) (m : Mod) (e : Mod)
    (he : slookup st (unresolvedKeyOf m) = some e) (hs : e.stage = .error) :
    (msSet st m).2.stage = .error := by
  rcases hcanon : m.canonHref with _ | c
  · simp [msSet, hcanon, he, hs, maybeMergeErrors_stage]
  · rcases hR : slookup st c with _ | r
    · simp [msSet, hcanon, hR, he, hs, maybeMergeErrors_stage]
    · by_cases hre : r.stage = .error
      · simp [msSet, hcanon, hR, he, hre, maybeMergeErrors_stage]
      · simp [msSet, hcanon, hR, he, hre, hs, maybeMergeErrors_stage]

/-- **C2.**  Error modules absorb later puts and never leave the error
state.  First conjunct: when the canonical slot for the incoming module
`m` already holds an error module `e`, `set` returns that same error
module (same object identity `ref`, still at the `ERROR` stage), its old
error list is kept as an initial segment, and — when the incoming module
is a distinct object — all of the incoming module's diagnostics are
merged into the appended segment.  Second conjunct: for every store,
every put and every key, a slot holding an error module still holds an
error module after the put. -/
theorem c2_error_absorbing (st : Store) (m : Mod) (c : String) (e : Mod)
    (hc : m.canonHref = some c) (he : slookup st c = some e) (hs : e.stage = .error) :
    ((msSet st m).2.ref = e.ref ∧ (msSet st m).2.stage = .error ∧
      (∃ extra, (msSet st m).2.errors = some (e.errors.getD [] ++ extra) ∧
        (m.ref ≠ e.ref → ∀ d ∈ m.errors.getD [], d ∈ extra))) ∧
    (∀ st2 m2 k e2, slookup st2 k = some e2 → e2.stage = .error →
      ∃ e3, slookup (msSet st2 m2).1 k = some e3 ∧ e3.stage = .error) := by
  have hsnd := msSet_fin_error_of_oldR st m c e hc he hs
  constructor
  · refine ⟨by rw [hsnd]; rfl, by rw [hsnd, maybeMergeErrors_stage]; exact hs, ?_⟩
    rw [hsnd]
    rcases hU : slookup st (unresolvedKeyOf m) with _ | u
    · by_cases hm : m.ref = e.ref
      · exact ⟨[], by simp [maybeMergeErrors, hm], fun h => absurd hm h⟩
      · exact ⟨m.errors.getD [], by simp [maybeMergeErrors, hm], fun _ d hd => hd⟩
    · by_cases hm : m.ref = e.ref
      · by_cases hu : u.ref = e.ref
        · exact ⟨[], by simp [maybeMergeErrors, hm, hu], fun h => absurd hm h⟩
        · exact ⟨u.errors.getD [], by simp [maybeMergeErrors, hm, hu],
            fun h => absurd hm h⟩
      · by_cases hu : u.ref = m.ref ∨ u.ref = e.ref
        · refine ⟨m.errors.getD [], ?_, fun _ d hd => hd⟩
          rcases hu with hu | hu <;> simp [maybeMergeErrors, hm, hu]
        · push_neg at hu
          refine ⟨m.errors.getD [] ++ u.errors.getD [], ?_,
            fun _ d hd => List.mem_append_left _ hd⟩
          simp [maybeMergeErrors, hm, hu.1, hu.2]
  · intro st2 m2 k e2 hk he2
    by_cases hku : k = unresolvedKeyOf m2
    · subst hku
      refine ⟨(msSet st2 m2).2, msSet_store_lookup_u st2 m2, ?_⟩
      exact msSet_fin_error_of_oldU st2 m2 e2 hk he2
    · by_cases hkc : m2.canonHref = some k
      · refine ⟨(msSet st2 m2).2, msSet_store_lookup_c st2 m2 k hkc, ?_⟩
        rw [msSet_fin_error_of_oldR st2 m2 k e2 hkc hk he2, maybeMergeErrors_stage]
        exact he2
      · exact ⟨e2, by rw [msSet_store_lookup_other st2 m2 k hku hkc]; exact hk, he2⟩

/-- A concrete error module occupying the canonical slot in the
`c2_error_absorbing` witness. -/
def mErr : Mod :=
  { ref := 7, stage := .error, absHref := "file:///x.js",
    canonHref := some "file:///real/x.js", baseCanonHref := "file:///dir/base.js",
    errors := some [3] }

/-- An incoming error module carrying one diagnostic, used in the
`c2_error_absorbing` witness. -/
def mIncoming : Mod :=
  { ref := 8, stage := .error, absHref := "file:///x.js",
    canonHref := some "file:///real/x.js", baseCanonHref := "file:///other/base.js",
    errors := some [4] }

/-- Witness for `c2_error_absorbing`: a store whose canonical slot holds
`mErr` and a later put of `mIncoming` under the same canonical id. -/
theorem c2_error_absorbing_witness :
    (mIncoming.canonHref = some "file:///real/x.js" ∧
     slookup [("file:///real/x.js", mErr)] "file:///real/x.js" = some mErr ∧
     mErr.stage = .error) ∧
    (((msSet [("file:///real/x.js", mErr)] mIncoming).2.ref = mErr.ref ∧
       (msSet [("file:///real/x.js", mErr)] mIncoming).2.stage = .error ∧
       (∃ extra, (msSet [("file:///real/x.js", mErr)] mIncoming).2.errors
           = some (mErr.errors.getD [] ++ extra) ∧
         (mIncoming.ref ≠ mErr.ref → ∀ d ∈ mIncoming.errors.getD [], d ∈ extra))) ∧
     (∀ st2 m2 k e2, slookup st2 k = some e2 → e2.stage = .error →
       ∃ e3, slookup (msSet st2 m2).1 k = some e3 ∧ e3.stage = .error)) :=
  ⟨⟨rfl, by decide, rfl⟩,
   c2_error_absorbing [("file:///real/x.js", mErr)] mIncoming "file:///real/x.js" mErr
     rfl (by decide) rfl⟩

end MS

namespace FC

/-- The `T | FetchError | NotUnderstood` result union of a fetcher
operation (src/fetcher.ts).  `NOT_UNDERSTOOD` is the frozen singleton
sentinel; a `FetchError` carries a message string. -/
inductive FetchOutcome (α : Type) where
  | understood (a : α)
  | fetchError (msg : String)
  | notUnderstood
deriving DecidableEq, Repr

/-- `FetchResult`: canonical module id, source text and metadata base. -/
structure FetchRes where
  moduleIdCanon : String
  moduleSource : String
  metadataBase : String
deriving DecidableEq, Repr

/-- A fetcher, with the three operations of the `Fetcher` interface.
Arguments are the href strings of the ids.  The `next` delegation
argument of the interface is not modelled: `fetcherChain` merely passes
a sub-chain along as `next`, and the claim describes each fetcher's
result as a function of its input. -/
structure SFetcher where
  canonicalize : String → String → FetchOutcome String
  list : String → String → FetchOutcome (List String)
  fetch : String → String → FetchOutcome FetchRes

/-- The `for (let i = left; i < n; ++i)` loop shared by the three
operations of the object `fetcherChain` builds: call each fetcher in
order, `continue` on a `NotUnderstood` result, return any other result,
and return `NOT_UNDERSTOOD` after the last fetcher. -/
def chainStep {α : Type} (run1 : SFetcher → FetchOutcome α) : List SFetcher → FetchOutcome α
  | [] => .notUnderstood
  | f :: rest =>
    match run1 f with
    | .notUnderstood => chainStep run1 rest
    | r => r

/-- `fetcherChain(...fetchers)` of src/fetcher.ts (the outer call
`chain(0, nullFetcher)`; an empty list yields the `nullFetcher`
behaviour, which answers `NOT_UNDERSTOOD` to everything). -/
def fetcherChain (fs : List SFetcher) : SFetcher where
  canonicalize := fun u b => chainStep (fun f => f.canonicalize u b) fs
  list := fun g b => chainStep (fun f => f.list g b) fs
  fetch := fun i b => chainStep (fun f => f.fetch i b) fs

theorem chainStep_all_nu {α : Type} (run1 : SFetcher → FetchOutcome α)
    (fs : List SFetcher) (h : ∀ f ∈ fs, run1 f = .notUnderstood) :
    chainStep run1 fs = .notUnderstood := by
  induction fs with
  | nil => rfl
  | cons f rest ih =>
    have hf := h f (List.mem_cons_self f rest)
    simp only [chainStep, hf]
    exact ih fun g hg => h g (List.mem_cons_of_mem f hg)

theorem chainStep_first {α : Type} (run1 : SFetcher → FetchOutcome α)
    (fs : List SFetcher) (i : Nat) (hi : i < fs.length)
    (hb : ∀ j (hj : j < i), run1 (fs.get ⟨j, hj.trans hi⟩) = .notUnderstood)
    (hne : run1 (fs.get ⟨i, hi⟩) ≠ .notUnderstood) :
    chainStep run1 fs = run1 (fs.get ⟨i, hi⟩) := by
  induction fs generalizing i with
  | nil => exact absurd hi (by simp)
  | cons f rest ih =>
    cases i with
    | zero =>
      simp only [List.get] at hne ⊢
      cases hr : run1 f with
      | notUnderstood => exact absurd hr hne
      | understood a => simp [chainStep, hr]
      | fetchError m => simp [chainStep, hr]
    | succ i2 =>
      have h0 : run1 f = .notUnderstood := hb 0 (Nat.succ_pos i2)
      simp only [chainStep, h0]
      exact ih i2 (Nat.lt_of_succ_lt_succ hi)
        (fun j hj => hb (j + 1) (Nat.succ_lt_succ hj)) hne

/-- **C8.**  For every list of fetchers combined by `fetcherChain` and
each of the three operations, the chained fetcher returns the result of
the first fetcher in chain order whose result is not `NOT_UNDERSTOOD`
(an explicit `NOT_UNDERSTOOD` advances to the next fetcher; any other
return — a value or a `FetchError` — terminates the chain), and returns
`NOT_UNDERSTOOD` when every fetcher returns `NOT_UNDERSTOOD`. -/
theorem c8_fetcher_chain (fs : List SFetcher) (u b g gb mi mb : String) :
    ((∀ f ∈ fs, f.canonicalize u b = .notUnderstood) →
        (fetcherChain fs).canonicalize u b = .notUnderstood) ∧
    (∀ i (hi : i < fs.length),
        (∀ j (hj : j < i), (fs.get ⟨j, hj.trans hi⟩).canonicalize u b = .notUnderstood) →
        (fs.get ⟨i, hi⟩).canonicalize u b ≠ .notUnderstood →
        (fetcherChain fs).canonicalize u b = (fs.get ⟨i, hi⟩).canonicalize u b) ∧
    ((∀ f ∈ fs, f.list g gb = .notUnderstood) →
        (fetcherChain fs).list g gb = .notUnderstood) ∧
    (∀ i (hi : i < fs.length),
        (∀ j (hj : j < i), (fs.get ⟨j, hj.trans hi⟩).list g gb = .notUnderstood) →
        (fs.get ⟨i, hi⟩).list g gb ≠ .notUnderstood →
        (fetcherChain fs).list g gb = (fs.get ⟨i, hi⟩).list g gb) ∧
    ((∀ f ∈ fs, f.fetch mi mb = .notUnderstood) →
        (fetcherChain fs).fetch mi mb = .notUnderstood) ∧
    (∀ i (hi : i < fs.length),
        (∀ j (hj : j < i), (fs.get ⟨j, hj.trans hi⟩).fetch mi mb = .notUnderstood) →
        (fs.get ⟨i, hi⟩).fetch mi mb ≠ .notUnderstood →
        (fetcherChain fs).fetch mi mb = (fs.get ⟨i, hi⟩).fetch mi mb) := by
  refine ⟨fun h => chainStep_all_nu _ fs h,
          fun i hi hb hne => chainStep_first _ fs i hi hb hne,
          fun h => chainStep_all_nu _ fs h,
          fun i hi hb hne => chainStep_first _ fs i hi hb hne,
          fun h => chainStep_all_nu _ fs h,
          fun i hi hb hne => chainStep_first _ fs i hi hb hne⟩

/-- A fetcher that understands nothing. -/
def fNU : SFetcher where
  canonicalize := fun _ _ => .notUnderstood
  list := fun _ _ => .notUnderstood
  fetch := fun _ _ => .notUnderstood

/-- A fetcher that canonicalizes everything to a fixed id. -/
def fVal : SFetcher where
  canonicalize := fun _ _ => .understood "file:///real/x.js"
  list := fun _ _ => .understood []
  fetch := fun _ _ => .fetchError "not found"

/-- Witness for `c8_fetcher_chain`: in the chain `[fNU, fVal]` the first
fetcher answers `NOT_UNDERSTOOD`, so the chain returns the second
fetcher's canonicalize result. -/
theorem c8_fetcher_chain_witness :
    (fetcherChain [fNU, fVal]).canonicalize "file:///x.js" "file:///base/" =
      FetchOutcome.understood "file:///real/x.js" := by
  have h := (c8_fetcher_chain [fNU, fVal] "file:///x.js" "file:///base/"
      "g" "gb" "mi" "mb").2.1 1 (by decide)
    (fun j hj => by
      have hj0 : j = 0 := by omega
      subst hj0; rfl)
    (by intro h; exact FetchOutcome.noConfusion h)
  exact h

end FC

namespace G

/-- The fetch-dedup quadruple: the importer's (base) absolute and
canonical hrefs and the canonicalized target's absolute and canonical
hrefs. -/
structure Quad where
  baseAbs : String
  baseCanon : String
  targetAbs : String
  targetCanon : String
deriving DecidableEq, Repr

/-- `JSON.stringify({base: {abs, canon}, target: {abs, canon}})` — the
`previouslyFetchedKey` of src/gatherer.ts. -/
def gatherKey (q : Quad) : String :=
  "\x7b\"base\":\x7b\"abs\":" ++ MS.jsonStr q.baseAbs ++ ",\"canon\":"
    ++ MS.jsonStr q.baseCanon
    ++ "\x7d,\"target\":\x7b\"abs\":" ++ MS.jsonStr q.targetAbs ++ ",\"canon\":"
    ++ MS.jsonStr q.targetCanon ++ "\x7d\x7d"

/-- One `onNewModule` notification as the gatherer's callback sees it:
the importer id (`m.fetchContext.moduleId`) and the outcome of
`fetcher.canonicalize(m.id.abs, base, nullFetcher)` — `some (abs,
canon)` for a `CanonModuleId`, `none` for anything else
(`NOT_UNDERSTOOD`, a `FetchError`, or an invalid result). -/
structure NewMod where
  baseAbs : String
  baseCanon : String
  canonResult : Option (String × String)
deriving DecidableEq, Repr

/-- What the callback does besides mutating `previouslyFetched`. -/
inductive GAction where
  | publishError
  | fetch (q : Quad)
deriving DecidableEq, Repr

/-- The body of the gatherer's new-module callback of src/gatherer.ts,
from canonicalization up to the `fetcher.fetch` call.  (Processing of
the fetch result publishes a resolved or error module but issues no
further fetches, so it does not affect the claim.) -/
def gatherStep (prev : List String) (m : NewMod) : List String × List GAction :=
  match m.canonResult with
  | none => (prev, [.publishError])
  | some (tAbs, tCanon) =>
    let q : Quad := ⟨m.baseAbs, m.baseCanon, tAbs, tCanon⟩
    if gatherKey q ∈ prev then (prev, [])
    else (gatherKey q :: prev, [.fetch q])

/-- Process a sequence of new-module notifications. -/
def gatherRun (prev : List String) : List NewMod → List String × List GAction
  | [] => (prev, [])
  | m :: rest =>
    let r := gatherStep prev m
    let r2 := gatherRun r.1 rest
    (r2.1, r.2 ++ r2.2)

/-- The quadruples for which `fetcher.fetch` was invoked. -/
def fetchesOf (acts : List GAction) : List Quad :=
  acts.filterMap fun a => match a with | .fetch q => some q | .publishError => none

theorem gatherStep_sub (prev : List String) (m : NewMod) (k : String)
    (h : k ∈ prev) : k ∈ (gatherStep prev m).1 := by
  unfold gatherStep
  rcases m.canonResult with _ | ⟨tAbs, tCanon⟩
  · exact h
  · dsimp only
    split
    · exact h
    · exact List.mem_cons_of_mem _ h

theorem gatherRun_fresh (ms : List NewMod) (prev : List String) :
    ∀ q ∈ fetchesOf (gatherRun prev ms).2, gatherKey q ∉ prev := by
  induction ms generalizing prev with
  | nil => intro q hq; simp [gatherRun, fetchesOf] at hq
  | cons m rest ih =>
    intro q hq hmem
    simp only [gatherRun, fetchesOf, List.filterMap_append, List.mem_append] at hq
    rcases hq with hq | hq
    · revert hq
      unfold gatherStep
      rcases hres : m.canonResult with _ | ⟨tAbs, tCanon⟩
      · simp [fetchesOf]
      · dsimp only
        split
        · simp [fetchesOf]
        · rename_i hnot
          simp only [fetchesOf, List.filterMap_cons, List.filterMap_nil]
          intro hq
          have : q = ⟨m.baseAbs, m.baseCanon, tAbs, tCanon⟩ := by
            simpa using hq
          subst this
          exact hnot hmem
    · exact ih (gatherStep prev m).1 q hq (gatherStep_sub prev m _ hmem)

/-- **C7.**  First conjunct: over any sequence of new-module
notifications, the gatherer invokes `fetcher.fetch` at most once per
(importer-abs, importer-canon, target-abs, target-canon) quadruple.
Second conjunct: a notification whose quadruple key was already seen
returns without fetching and without publishing. -/
theorem c7_fetch_dedup (ms : List NewMod) :
    (fetchesOf (gatherRun [] ms).2).Nodup ∧
    (∀ prev m tAbs tCanon, m.canonResult = some (tAbs, tCanon) →
        gatherKey ⟨m.baseAbs, m.baseCanon, tAbs, tCanon⟩ ∈ prev →
        gatherStep prev m = (prev, [])) := by
  constructor
  · have main : ∀ ms2 prev, (fetchesOf (gatherRun prev ms2).2).Nodup := by
      intro ms2
      induction ms2 with
      | nil => intro prev; simp [gatherRun, fetchesOf]
      | cons m rest ih =>
        intro prev
        simp only [gatherRun, fetchesOf, List.filterMap_append]
        unfold gatherStep
        rcases hres : m.canonResult with _ | ⟨tAbs, tCanon⟩
        · simpa [fetchesOf] using ih prev
        · dsimp only
          split
          · simpa [fetchesOf] using ih prev
          · rename_i hnot
            simp only [List.filterMap_cons, List.filterMap_nil]
            refine List.Nodup.cons ?_ (ih _)
            intro hmem
            exact gatherRun_fresh rest _ _ hmem
              (List.mem_cons_self _ _)
    exact main ms []
  · intro prev m tAbs tCanon hres hmem
    unfold gatherStep
    rw [hres]
    simp [hmem]

/-- Witness for `c7_fetch_dedup`: two identical notifications; the first
issues the single fetch, the second is suppressed by the dedup key. -/
theorem c7_fetch_dedup_witness :
    (fetchesOf (gatherRun []
        [⟨"file:///imp.js", "file:///imp.js", some ("file:///t.js", "file:///real/t.js")⟩,
         ⟨"file:///imp.js", "file:///imp.js", some ("file:///t.js", "file:///real/t.js")⟩]).2).Nodup ∧
    gatherStep [gatherKey ⟨"file:///imp.js", "file:///imp.js", "file:///t.js", "file:///real/t.js"⟩]
        ⟨"file:///imp.js", "file:///imp.js", some ("file:///t.js", "file:///real/t.js")⟩ =
      ([gatherKey ⟨"file:///imp.js", "file:///imp.js", "file:///t.js", "file:///real/t.js"⟩], []) :=
  ⟨(c7_fetch_dedup _).1,
   (c7_fetch_dedup []).2 _ _ "file:///t.js" "file:///real/t.js" rfl
     (List.mem_singleton.mpr rfl)⟩

end G

namespace FIE

/-- The `Stage` union of src/rewriter/io.ts. -/
inductive Stage where
  | moot
  | eager
  | runtime
deriving DecidableEq, Repr

/-- The literal `@prebake` of the regex `/@prebake.(\w+)/g`. -/
def prebakePat : List Char := ['@', 'p', 'r', 'e', 'b', 'a', 'k', 'e']

/-- Match a literal character sequence, returning the remaining input. -/
def dropLit : List Char → List Char → Option (List Char)
  | [], rest => some rest
  | _ :: _, [] => none
  | p :: pt, c :: ct => if c = p then dropLit pt ct else none

/-- JS `\w`: ASCII word characters. -/
def isWordChar (c : Char) : Bool := c.isAlpha || c.isDigit || c = '_'

/-- The greedy `\w+` run: the maximal word-character run and the rest. -/
def wordRun : List Char → List Char × List Char
  | [] => ([], [])
  | c :: t =>
    if isWordChar c then
      let r := wordRun t
      (c :: r.1, r.2)
    else ([], c :: t)

/-- JS `.` without the /s flag: any character except a line terminator. -/
def isDotChar (c : Char) : Bool :=
  !(c = '\n' || c = '\r' || c = Char.ofNat 0x2028 || c = Char.ofNat 0x2029)

/-- The `switch (term)` of `stageFromComments`: only the three known
terms update the stage. -/
def stageOfTerm (w : String) : Option Stage :=
  if w = "moot" then some .moot
  else if w = "eager" then some .eager
  else if w = "runtime" then some .runtime
  else none

/-- The replace-callback loop of `stageFromComments`: run the global
regex `/@prebake.(\w+)/g` over the comment text, updating `stage` on
every recognized term (so the last match wins).  Structural on a fuel
argument; one unit of fuel is spent per attempted match position, so
`fuel = input length` always suffices. -/
def scanStagesF : Nat → List Char → Option Stage → Option Stage
  | 0, _, acc => acc
  | _ + 1, [], acc => acc
  | fuel + 1, c :: t, acc =>
    match dropLit prebakePat (c :: t) with
    | none => scanStagesF fuel t acc
    | some rest =>
      match rest with
      | [] => scanStagesF fuel t acc
      | d :: rest2 =>
        if isDotChar d then
          match wordRun rest2 with
          | ([], _) => scanStagesF fuel t acc
          | (w :: ws, after) =>
            let acc2 := match stageOfTerm (String.mk (w :: ws)) with
              | some s => some s
              | none => acc
            scanStagesF fuel after acc2
        else scanStagesF fuel t acc

/-- The recognized stage tokens of a comment text, in scan order; the
same scan as `scanStagesF`, collecting instead of overwriting. -/
def stageTokensF : Nat → List Char → List Stage
  | 0, _ => []
  | _ + 1, [] => []
  | fuel + 1, c :: t =>
    match dropLit prebakePat (c :: t) with
    | none => stageTokensF fuel t
    | some rest =>
      match rest with
      | [] => stageTokensF fuel t
      | d :: rest2 =>
        if isDotChar d then
          match wordRun rest2 with
          | ([], _) => stageTokensF fuel t
          | (w :: ws, after) =>
            match stageOfTerm (String.mk (w :: ws)) with
            | some s => s :: stageTokensF fuel after
            | none => stageTokensF fuel after
        else stageTokensF fuel t

def scanStages (l : List Char) (acc : Option Stage) : Option Stage :=
  scanStagesF l.length l acc

def stageTokens (l : List Char) : List Stage :=
  stageTokensF l.length l

/-- `stageFromComments(comments)` of find-imports-exports.ts: when the
comment list is non-null and non-empty, scan only its LAST comment
(`comments[comments.length - 1]`) with the regex, the last recognized
term winning; otherwise null. -/
def stageFromComments (comments : Option (List String)) : Option Stage :=
  match comments with
  | none => none
  | some cs =>
    match cs.getLast? with
    | none => none
    | some c => scanStages c.data none

/-- Modelled from the claim's words: the stage is obtained by scanning
the binding's WHOLE leading comment block (every comment of the list,
in order) for the three tokens, the last match winning; none when no
token is present. -/
def specStageWholeBlock (comments : Option (List String)) : Option Stage :=
  match comments with
  | none => none
  | some cs => cs.foldl (fun acc c => scanStages c.data acc) none

theorem elim_getLast?_cons (s : Stage) (ts : List Stage) (acc : Option Stage) :
    (((s :: ts).getLast?).elim acc some : Option Stage)
      = ((ts.getLast?).elim (some s) some) := by
  induction ts generalizing s acc with
  | nil => rfl
  | cons t ts ih =>
    rw [List.getLast?_cons_cons, ih t acc, ih t (some s)]

/-- The imperative overwrite-accumulator scan equals “last token wins”. -/
theorem scanStagesF_eq_tokens (fuel : Nat) :
    ∀ (l : List Char) (acc : Option Stage),
      scanStagesF fuel l acc = ((stageTokensF fuel l).getLast?).elim acc some := by
  induction fuel with
  | zero => intro l acc; simp [scanStagesF, stageTokensF]
  | succ fuel ih =>
    intro l acc
    cases l with
    | nil => simp [scanStagesF, stageTokensF]
    | cons c t =>
      rw [scanStagesF, stageTokensF]
      cases hdrop : dropLit prebakePat (c :: t) with
      | none => exact ih t acc
      | some rest =>
        cases rest with
        | nil => exact ih t acc
        | cons d rest2 =>
          by_cases hdot : isDotChar d
          · simp only [hdot, if_true]
            cases hw : wordRun rest2 with
            | mk w after =>
              cases w with
              | nil => exact ih t acc
              | cons w0 ws =>
                dsimp only
                cases hterm : stageOfTerm (String.mk (w0 :: ws)) with
                | none => simp only [hterm]; exact ih after acc
                | some s =>
                  simp only [hterm]
                  rw [ih after, elim_getLast?_cons]
          · simp only [hdot, if_false]
            exact ih t acc

theorem scanStages_eq_tokens (l : List Char) (acc : Option Stage) :
    scanStages l acc = ((stageTokens l).getLast?).elim acc some :=
  scanStagesF_eq_tokens l.length l acc

/-- **C5, counterexample.**  The claim says the stage is obtained by
scanning the binding's whole leading comment block with the last match
winning.  The source scans only the LAST comment of the block: for the
comment block `[" @prebake.moot ", " irrelevant "]` it yields no stage,
while scanning the whole block yields `moot`. -/
theorem c5_counterexample :
    stageFromComments (some [" @prebake.moot ", " irrelevant "]) = none ∧
    specStageWholeBlock (some [" @prebake.moot ", " irrelevant "]) = some .moot := by
  exact ⟨by decide, by decide⟩

/-- **C5, amended.**  The stage attached to a binding's finding is
obtained by scanning only the LAST comment of the binding's leading
comment block for the tokens `@prebake.moot` / `@prebake.eager` /
`@prebake.runtime`, the last match in that comment winning, and is none
when the block is absent or empty or the last comment holds no token:
(1) the result is exactly the last recognized token of the last
comment; (2) in particular, when the last comment's last token is
`@prebake.<s>`, the extracted stage is `s`; (3) when no comment of the
block holds any token, the result is none. -/
theorem c5_stage_from_last_comment (comments : Option (List String)) :
    (stageFromComments comments
      = comments.bind fun cs => cs.getLast?.bind fun c => (stageTokens c.data).getLast?) ∧
    (∀ cs c s, comments = some cs → cs.getLast? = some c →
      (stageTokens c.data).getLast? = some s → stageFromComments comments = some s) ∧
    (∀ cs, comments = some cs → (∀ c ∈ cs, stageTokens c.data = []) →
      stageFromComments comments = none) := by
  have hmain : stageFromComments comments
      = comments.bind fun cs => cs.getLast?.bind fun c => (stageTokens c.data).getLast? := by
    cases comments with
    | none => rfl
    | some cs =>
      cases hlast : cs.getLast? with
      | none => simp [stageFromComments, hlast]
      | some c =>
        simp only [stageFromComments, hlast, Option.bind_some, Option.some_bind]
        rw [scanStages_eq_tokens]
        cases (stageTokens c.data).getLast? <;> rfl
  refine ⟨hmain, ?_, ?_⟩
  · intro cs c s hcs hlast htok
    rw [hmain, hcs]
    simp [hlast, htok]
  · intro cs hcs hall
    rw [hmain, hcs]
    cases hlast : cs.getLast? with
    | none => simp [hlast]
    | some c =>
      have hc : c ∈ cs := by
        obtain ⟨hne, hcl⟩ := List.mem_getLast?_eq_getLast (Option.mem_def.mpr hlast)
        exact hcl ▸ List.getLast_mem hne
      simp [hlast, hall c hc]

/-- Witness for `c5_stage_from_last_comment`: a single comment holding
an `eager` and then a `moot` token extracts `moot` (last match wins). -/
theorem c5_stage_from_last_comment_witness :
    (some [" x @prebake.eager y @prebake.moot z "] : Option (List String))
        = some [" x @prebake.eager y @prebake.moot z "] ∧
    ([" x @prebake.eager y @prebake.moot z "] : List String).getLast?
        = some " x @prebake.eager y @prebake.moot z " ∧
    (stageTokens " x @prebake.eager y @prebake.moot z ".data).getLast? = some .moot ∧
    stageFromComments (some [" x @prebake.eager y @prebake.moot z "]) = some .moot :=
  ⟨rfl, rfl, by decide,
   (c5_stage_from_last_comment (some [" x @prebake.eager y @prebake.moot z "])).2.1
     [" x @prebake.eager y @prebake.moot z "] " x @prebake.eager y @prebake.moot z "
     .moot rfl rfl (by decide)⟩

mutual

/-- The babel AST node shapes that `findImportsExports` and
`destructure` inspect on require-linked imports.  `leadingComments` is
the attached comment list (`none` when babel attached nothing).  Child
sequences use the mutually-inductive `NodeList` / `OptNodeList` /
`OptNode` spines so that all functions over the AST are structurally
recursive. -/
inductive Node where
  | ident (name : String) (leadingComments : Option (List String))
  | strLit (value : String)
  | objectPattern (properties : NodeList)
  | objectProperty (key : Node) (value : Node) (leadingComments : Option (List String))
  | arrayPattern (elements : OptNodeList)
  | restElement (argument : Node)
  | assignmentPattern (lhs : Node) (rhs : Node) (leadingComments : Option (List String))
  | memberExpression (obj : Node) (property : Node)
  | callExpression (callee : Node) (args : NodeList)
  | variableDeclarator (declId : Node) (declInit : OptNode)
      (leadingComments : Option (List String))
  | variableDeclaration (declarations : NodeList)
  | exprStatement (expr : Node)
  | program (body : NodeList)
deriving Repr

inductive NodeList where
  | nil
  | cons (hd : Node) (tl : NodeList)
deriving Repr

inductive OptNodeList where
  | nil
  | consSome (hd : Node) (tl : OptNodeList)
  | consNone (tl : OptNodeList)
deriving Repr

inductive OptNode where
  | none
  | some (n : Node)
deriving Repr
end

/-- The `left` argument of `destructure`'s callback:
`types.Identifier | '*' | null` (the `Option` around `LeftRef`). -/
inductive LeftRef where
  | id (name : String) (leadingComments : Option (List String))
  | star
deriving DecidableEq, Repr

/-- One callback invocation of `destructure`: the bound identifier (name
and leading comments), `left`, `depth` and the `context` node list. -/
structure CbArgs where
  localName : String
  localComments : Option (List String)
  leftRef : Option LeftRef
  depth : Nat
  context : List Node

/-- `node.leadingComments` for the node shapes that can appear in a
`context` list. -/
def leadingCommentsOf : Node → Option (List String)
  | .ident _ lc => lc
  | .objectProperty _ _ lc => lc
  | .assignmentPattern _ _ lc => lc
  | .variableDeclarator _ _ lc => lc
  | _ => none

mutual

/-- `destructure(p, cb, depth, left, context)` of
find-imports-exports.ts with the callback reified: the list of callback
invocations in order.  (The TS function throws `'TODO'` on
`MemberExpression` and unknown node shapes; those yield no callbacks
here and do not occur in the claims' inputs.) -/
def destructure : Node → Nat → Option LeftRef → List Node → List CbArgs
  | .assignmentPattern l r lc, depth, _, context =>
    destructure l depth none (context ++ [.assignmentPattern l r lc])
  | .ident name lc, depth, left, context => [⟨name, lc, left, depth, context⟩]
  | .objectPattern props, depth, _, _ => destructureProps props depth
  | .objectProperty key value lc, depth, _, context =>
    let leftId := match key with
      | .ident n kc => some (LeftRef.id n kc)
      | _ => none
    destructure value depth leftId (context ++ [.objectProperty key value lc])
  | .arrayPattern els, depth, _, _ => destructureElems els depth
  | .restElement arg, depth, _, _ => destructure arg depth (some .star) []
  | _, _, _, _ => []

/-- The `for (const property of p.properties)` loop of the
`ObjectPattern` case: each property is destructured at `depth + 1` with
a fresh (default) `left` and `context`. -/
def destructureProps : NodeList → Nat → List CbArgs
  | .nil, _ => []
  | .cons pr t, depth => destructure pr (depth + 1) none [] ++ destructureProps t depth

/-- The `for (const element of p.elements)` loop of the `ArrayPattern`
case: holes are skipped. -/
def destructureElems : OptNodeList → Nat → List CbArgs
  | .nil, _ => []
  | .consSome e t, depth => destructure e (depth + 1) none [] ++ destructureElems t depth
  | .consNone t, depth => destructureElems t depth
end

/-- The comment-fallback loop of the destructuring callbacks:
`let { leadingComments } = local;` then walk the context nodes while
`!leadingComments`. -/
def commentsFallback (localComments : Option (List String)) : List Node →
    Option (List String)
  | [] => localComments
  | n :: t =>
    match localComments with
    | some l => some l
    | none => commentsFallback (leadingCommentsOf n) t

/-- A `SymbolFinding` in its `toJSON` view: remote and local names
(`"*"` and `"default"` as literal names) and the stage. -/
structure SymbolFinding where
  remote : Option String
  localName : Option String
  stage : Option Stage
deriving DecidableEq, Repr

/-- An `ImportExportFinding` in its `toJSON` view. -/
structure Finding where
  findingType : String
  linkType : String
  moduleSpecifier : Option String
  symbols : List SymbolFinding
deriving DecidableEq, Repr

/-- The callback the `CallExpression` (require) visitor passes to
`destructure`: `remote = depth === 1 ? left : null`, the stage from the
local identifier's comments with context fallback. -/
def requireCb (a : CbArgs) : SymbolFinding :=
  let lc := commentsFallback a.localComments a.context
  let remote : Option String :=
    if a.depth = 1 then
      match a.leftRef with
      | some (.id n _) => some n
      | some .star => some "*"
      | none => none
    else none
  ⟨remote, some a.localName, stageFromComments lc⟩

def isStringLit : Node → Bool
  | .strLit _ => true
  | _ => false

/-- `isRequire(node, path)`: a `CallExpression` whose callee is the
identifier `require`, with at least one argument whose first argument is
a string literal, where `require` has no binding in the surrounding
scope.  `requireFree` stands for `!path.scope.hasBinding('require')`;
the model carries no scope chain, and the claims' inputs declare no
`require` binding. -/
def isRequire (requireFree : Bool) : Node → Bool
  | .callExpression (.ident "require" _) (.cons a0 _) => requireFree && isStringLit a0
  | _ => false

/-- The `CallExpression` visitor of `findImportsExports`, which yields
one `cjs` import finding per bare require call: a lone identifier
binding becomes `{remote: '*', local: id}`; a destructuring binding is
traversed with `destructure`; any other (or absent) parent contributes
no symbols.  (`processed` only excludes require calls already consumed
by the `module.exports` visitor, which our inputs do not contain.) -/
def requireVisitor (requireFree : Bool) (parent? : Option Node) (n : Node) :
    List Finding :=
  match n with
  | .callExpression callee args =>
    if isRequire requireFree (.callExpression callee args) then
      match args with
      | .cons (.strLit target) _ =>
        let symbols : List SymbolFinding :=
          match parent? with
          | none => []
          | some (.variableDeclarator (.ident nm lc) i plc) =>
            let stage := stageFromComments
              (match lc with
               | some l => some l
               | none => leadingCommentsOf (.variableDeclarator (.ident nm lc) i plc))
            [⟨some "*", some nm, stage⟩]
          | some (.variableDeclarator declId _ _) =>
            (destructure declId 0 none []).map requireCb
          | some _ => []
        [⟨"import", "cjs", some target, symbols⟩]
      | _ => []
    else []
  | _ => []

mutual

/-- Babel's depth-first enter-order traversal dispatching the
`CallExpression` visitor (the only visitor of `findImportsExports` that
the node shapes of this AST subset can trigger), carrying the parent
node. -/
def walkNode (rf : Bool) (parent? : Option Node) (n : Node) : List Finding :=
  requireVisitor rf parent? n ++
  (match n with
   | .program body => walkList rf (some n) body
   | .variableDeclaration ds => walkList rf (some n) ds
   | .variableDeclarator i init _ =>
     walkNode rf (some n) i ++ walkOptNode rf (some n) init
   | .callExpression callee args =>
     walkNode rf (some n) callee ++ walkList rf (some n) args
   | .objectPattern props => walkList rf (some n) props
   | .objectProperty k v _ => walkNode rf (some n) k ++ walkNode rf (some n) v
   | .arrayPattern els => walkOptList rf (some n) els
   | .restElement a => walkNode rf (some n) a
   | .assignmentPattern l r _ => walkNode rf (some n) l ++ walkNode rf (some n) r
   | .memberExpression o p => walkNode rf (some n) o ++ walkNode rf (some n) p
   | .exprStatement e => walkNode rf (some n) e
   | _ => [])

def walkList (rf : Bool) (parent? : Option Node) : NodeList → List Finding
  | .nil => []
  | .cons hd tl => walkNode rf parent? hd ++ walkList rf parent? tl

def walkOptList (rf : Bool) (parent? : Option Node) : OptNodeList → List Finding
  | .nil => []
  | .consSome hd tl => walkNode rf parent? hd ++ walkOptList rf parent? tl
  | .consNone tl => walkOptList rf parent? tl

def walkOptNode (rf : Bool) (parent? : Option Node) : OptNode → List Finding
  | .none => []
  | .some n => walkNode rf parent? n
end

/-- `findImportsExports(ast)`, restricted to the visitors this AST
subset can trigger. -/
def findImportsExports (requireFree : Bool) (n : Node) : List Finding :=
  walkNode requireFree none n

/-- The parse of
`const { a, /* @prebake.moot */ b, c: d, ...rest } = require('foo');`.
The comment attaches as the leading comment of the `ObjectProperty` for
`b` (babel attaches leading comments to the node starting right after
them). -/
def c6Ast : Node :=
  .program (.cons
    (.variableDeclaration (.cons
      (.variableDeclarator
        (.objectPattern
          (.cons (.objectProperty (.ident "a" none) (.ident "a" none) none)
          (.cons (.objectProperty (.ident "b" none) (.ident "b" none)
                    (some [" @prebake.moot "]))
          (.cons (.objectProperty (.ident "c" none) (.ident "d" none) none)
          (.cons (.restElement (.ident "rest" none))
          .nil)))))
        (.some (.callExpression (.ident "require" none) (.cons (.strLit "foo") .nil)))
        none)
      .nil))
    .nil)

/-- **C6.**  Running the extractor on
`const { a, /* @prebake.moot */ b, c: d, ...rest } = require('foo');`
yields exactly one import finding of require-like (`cjs`) link type with
specifier `'foo'` whose symbol list is `[{remote:a, local:a},
{remote:b, local:b, stage:moot}, {remote:c, local:d},
{remote:*, local:rest}]`. -/
theorem c6_destructured_require :
    findImportsExports true c6Ast =
      [⟨"import", "cjs", some "foo",
        [⟨some "a", some "a", none⟩,
         ⟨some "b", some "b", some .moot⟩,
         ⟨some "c", some "d", none⟩,
         ⟨some "*", some "rest", none⟩]⟩] := by
  decide

end FIE

namespace OG

/-- Values as `typeof` distinguishes them in `getProxy_`.  Objects and
functions are heap references; `proxyOf r` is a proxy the recorder
created for the object `r` (i.e. a value in `proxyToObj`'s domain). -/
inductive Val where
  | undef
  | boolv (b : Bool)
  | numv (n : Int)
  | strv (s : String)
  | symv (id : Nat)
  | nullv
  | obj (r : Nat)
  | fn (r : Nat)
  | proxyOf (r : Nat)
deriving DecidableEq, Repr

/-- The `type` tags of the event records of src/replayable.ts. -/
inductive EvKind where
  | getPrototypeOf
  | setPrototypeOf
  | preventExtensions
  | getOwnPropertyDescriptor
  | get
  | set
  | deleteProperty
  | defineProperty
  | apply
  | construct
  | getGlobal
  | codeBind
deriving DecidableEq, Repr

/-- An event record: `type`, `seq` and the payload fields `x`, `p`, `y`,
`thisValue`, `args`, `desc` (absent fields are `none`/`[]`). -/
structure Event where
  kind : EvKind
  seq : Nat
  x : Option Val
  p : Option String
  y : Option Val
  thisValue : Option Val
  args : List Val
  desc : List Val
deriving DecidableEq, Repr

/-- An event minus its sequence number: what an origin callback
`(seq) => ({type, seq, ...})` contributes besides the stamped `seq`. -/
structure EvTemplate where
  kind : EvKind
  x : Option Val
  p : Option String
  y : Option Val
  thisValue : Option Val
  args : List Val
  desc : List Val
deriving DecidableEq, Repr

def mkEvent (t : EvTemplate) (seq : Nat) : Event :=
  ⟨t.kind, seq, t.x, t.p, t.y, t.thisValue, t.args, t.desc⟩

/-- `History`: the origin event and the accumulated change events of one
object (the `proxy` field is implicit: `Val.proxyOf r`). -/
structure History where
  origin : Event
  changes : List Event
deriving DecidableEq, Repr

/-- The recorder state: the `seq` counter and `objToHistory`, plus a
ghost `log` listing every recorded event in creation order (used to
state the total-order claim; it affects nothing the code computes). -/
structure OGState where
  seq : Nat
  histories : List (Nat × History)
  log : List Event
deriving DecidableEq, Repr

/-- The recorder state right after `new ObjectGraph()` allocates its
empty maps and zero counter (the constructor's bootstrap accesses are
ordinary `getProxy` calls, modelled as leading operations of a run). -/
def og0 : OGState := ⟨0, [], []⟩

def hlookup : List (Nat × History) → Nat → Option History
  | [], _ => none
  | (k, v) :: t, key => if k = key then some v else hlookup t key

def hinsert : List (Nat × History) → Nat → History → List (Nat × History)
  | [], key, v => [(key, v)]
  | (k, w) :: t, key, v =>
    if k = key then (key, v) :: t else (k, w) :: hinsert t key v

/-- `ObjectGraph.getProxy_(x, origin)` of src/replayable.ts: strings,
numbers, symbols, booleans and undefined pass through; `null` and
already-created proxies pass through; an object or function with a
history returns its existing proxy; otherwise a fresh proxy is created
and its origin event is stamped with `seq++` — unless no origin maker
was supplied, which throws (`none` result). -/
def getProxy (st : OGState) (x : Val) (origin : Option EvTemplate) :
    OGState × Option Val :=
  match x with
  | .strv s => (st, some (.strv s))
  | .numv n => (st, some (.numv n))
  | .symv i => (st, some (.symv i))
  | .boolv b => (st, some (.boolv b))
  | .undef => (st, some .undef)
  | .nullv => (st, some .nullv)
  | .proxyOf r => (st, some (.proxyOf r))
  | .obj r =>
    match hlookup st.histories r with
    | some _ => (st, some (.proxyOf r))
    | none =>
      match origin with
      | none => (st, none)
      | some t =>
        ({ seq := st.seq + 1,
           histories := hinsert st.histories r ⟨mkEvent t st.seq, []⟩,
           log := st.log ++ [mkEvent t st.seq] }, some (.proxyOf r))
  | .fn r =>
    match hlookup st.histories r with
    | some _ => (st, some (.proxyOf r))
    | none =>
      match origin with
      | none => (st, none)
      | some t =>
        ({ seq := st.seq + 1,
           histories := hinsert st.histories r ⟨mkEvent t st.seq, []⟩,
           log := st.log ++ [mkEvent t st.seq] }, some (.proxyOf r))

/-- `history.changes.push({..., seq: self.seq++, ...})` preceded by the
`if (!history) throw new Error()` guard of the mutation traps. -/
def pushChange (st : OGState) (r : Nat) (t : EvTemplate) : Option OGState :=
  match hlookup st.histories r with
  | none => none
  | some h =>
    some { seq := st.seq + 1,
           histories := hinsert st.histories r
             { h with changes := h.changes ++ [mkEvent t st.seq] },
           log := st.log ++ [mkEvent t st.seq] }

/-- One trap dispatch of `ObjectGraph.proxyHandler` (or an external
`getProxy` call).  The results of the underlying `Reflect` operations —
which live on the unmodelled JavaScript heap — are supplied as oracle
fields: `ok` is the boolean verdict of `Reflect.set` etc., the `result`
values are what `Reflect.get`/`apply`/`construct` returned.  The three
`get` variants reflect the prototype-walk outcome: a data property, an
accessor property, or no own descriptor found. -/
inductive TrapOp where
  | getPrototypeOf (target : Nat) (protoResult : Val)
  | setPrototypeOf (target : Nat) (v : Val) (ok : Bool)
  | isExtensible (target : Nat) (r : Bool)
  | preventExtensions (target : Nat) (ok : Bool)
  | getOwnPropertyDescriptor (target : Nat) (p : String) (descResult : Val)
  | getData (target : Nat) (p : String) (value : Val)
  | getAccessor (target : Nat) (p : String) (result : Val)
  | getMissing (target : Nat) (p : String) (result : Val)
  | set (target : Nat) (p : String) (v : Val) (ok : Bool)
  | deleteProperty (target : Nat) (p : String) (ok : Bool)
  | defineProperty (target : Nat) (p : String) (descValues : List Val) (ok : Bool)
  | apply (target : Nat) (thisValue : Val) (args : List Val) (result : Val)
  | construct (target : Nat) (args : List Val) (result : Val)
  | externalGetProxy (x : Val) (origin : Option EvTemplate)
deriving Repr

/-- The dispatch of one trap, following the handlers of
`ObjectGraph.proxyHandler` line by line.  `.error` models a thrown
`Error` (missing history or unavailable origin). -/
def trapStep (st : OGState) (op : TrapOp) : OGState × Except Unit Val :=
  match op with
  | .getPrototypeOf target protoResult =>
    let r := getProxy st protoResult
      (some ⟨.getPrototypeOf, some (.obj target), none, none, none, [], []⟩)
    (r.1, match r.2 with | some v => .ok v | none => .error ())
  | .setPrototypeOf target v ok =>
    match pushChange st target
        ⟨.setPrototypeOf, some (.obj target), none, some v, none, [], []⟩ with
    | none => (st, .error ())
    | some st2 => (st2, .ok (.boolv ok))
  | .isExtensible _ r => (st, .ok (.boolv r))
  | .preventExtensions target ok =>
    match pushChange st target
        ⟨.preventExtensions, some (.obj target), none, none, none, [], []⟩ with
    | none => (st, .error ())
    | some st2 => (st2, .ok (.boolv ok))
  | .getOwnPropertyDescriptor target p descResult =>
    let r := getProxy st descResult
      (some ⟨.getOwnPropertyDescriptor, some (.obj target), some p, none, none, [], []⟩)
    (r.1, match r.2 with | some v => .ok v | none => .error ())
  | .getData target p value =>
    let r := getProxy st value
      (some ⟨.get, some (.obj target), some p, none, none, [], []⟩)
    (r.1, match r.2 with | some v => .ok v | none => .error ())
  | .getAccessor target p result =>
    match pushChange st target
        ⟨.get, some (.obj target), some p, none, none, [], []⟩ with
    | none => (st, .error ())
    | some st2 =>
      let r := getProxy st2 result
        (some ⟨.get, some (.obj target), some p, none, none, [], []⟩)
      (r.1, match r.2 with | some v => .ok v | none => .error ())
  | .getMissing target p result =>
    let r := getProxy st result
      (some ⟨.get, some (.obj target), some p, none, none, [], []⟩)
    (r.1, match r.2 with | some v => .ok v | none => .error ())
  | .set target p v ok =>
    match pushChange st target
        ⟨.set, some (.obj target), some p, some v, none, [], []⟩ with
    | none => (st, .error ())
    | some st2 => (st2, .ok (.boolv ok))
  | .deleteProperty target p ok =>
    match pushChange st target
        ⟨.deleteProperty, some (.obj target), some p, none, none, [], []⟩ with
    | none => (st, .error ())
    | some st2 => (st2, .ok (.boolv ok))
  | .defineProperty target p descValues ok =>
    match pushChange st target
        ⟨.defineProperty, some (.obj target), some p, none, none, [], descValues⟩ with
    | none => (st, .error ())
    | some st2 => (st2, .ok (.boolv ok))
  | .apply target thisValue args result =>
    let r := getProxy st result
      (some ⟨.apply, some (.fn target), none, none, some thisValue, args, []⟩)
    (r.1, match r.2 with | some v => .ok v | none => .error ())
  | .construct target args result =>
    let r := getProxy st result
      (some ⟨.construct, some (.fn target), none, none, none, args, []⟩)
    (r.1, match r.2 with | some v => .ok v | none => .error ())
  | .externalGetProxy x origin =>
    let r := getProxy st x origin
    (r.1, match r.2 with | some v => .ok v | none => .error ())

/-- A run of the recorder: dispatch the operations in order. -/
def run (st : OGState) : List TrapOp → OGState
  | [] => st
  | op :: rest => run (trapStep st op).1 rest

end OG

namespace OG

theorem hlookup_hinsert_self (l : List (Nat × History)) (k : Nat) (v : History) :
    hlookup (hinsert l k v) k = some v := by
  induction l with
  | nil => simp [hinsert, hlookup]
  | cons hd t ih =>
    obtain ⟨k2, w⟩ := hd
    by_cases hk : k2 = k
    · subst hk; simp [hinsert, hlookup]
    · simp [hinsert, hlookup, hk, ih]

theorem hlookup_hinsert_ne (l : List (Nat × History)) (k k2 : Nat) (v : History)
    (h : k ≠ k2) : hlookup (hinsert l k v) k2 = hlookup l k2 := by
  induction l with
  | nil => simp [hinsert, hlookup, h]
  | cons hd t ih =>
    obtain ⟨k3, w⟩ := hd
    by_cases hk : k3 = k
    · subst hk; simp [hinsert, hlookup, h]
    · simp [hinsert, hlookup, hk, ih]

/-- Well-formedness of the recorder's event bookkeeping: every recorded
event's `seq` is below the counter, the log is strictly increasing in
`seq`, and every event held in a history is in the log. -/
structure WfLog (st : OGState) : Prop where
  bound : ∀ e ∈ st.log, e.seq < st.seq
  sorted : List.Pairwise (fun a b => a.seq < b.seq) st.log
  hist : ∀ r h, hlookup st.histories r = some h →
    h.origin ∈ st.log ∧ ∀ c ∈ h.changes, c ∈ st.log

theorem wf_og0 : WfLog og0 := by
  refine ⟨?_, ?_, ?_⟩ <;> simp [og0, hlookup]

/-- Stamping a fresh event with the current counter keeps the log
strictly increasing. -/
theorem wf_append_sorted (st : OGState) (t : EvTemplate) (hw : WfLog st) :
    List.Pairwise (fun a b => a.seq < b.seq) (st.log ++ [mkEvent t st.seq]) := by
  rw [List.pairwise_append]
  refine ⟨hw.sorted, List.pairwise_singleton _ _, ?_⟩
  intro a ha b hb
  have hb2 : b = mkEvent t st.seq := by simpa using hb
  subst hb2
  exact hw.bound a ha

theorem wf_fresh (st : OGState) (r : Nat) (t : EvTemplate)
    (hw : WfLog st) :
    WfLog { seq := st.seq + 1,
            histories := hinsert st.histories r ⟨mkEvent t st.seq, []⟩,
            log := st.log ++ [mkEvent t st.seq] } := by
  refine ⟨?_, wf_append_sorted st t hw, ?_⟩
  · intro e he
    rcases List.mem_append.mp he with he | he
    · exact Nat.lt_succ_of_lt (hw.bound e he)
    · have : e = mkEvent t st.seq := by simpa using he
      subst this
      exact Nat.lt_succ_self _
  · intro r2 h2 hl
    by_cases hr : r = r2
    · subst hr
      rw [hlookup_hinsert_self] at hl
      cases hl
      exact ⟨List.mem_append_right _ (by simp), by simp⟩
    · rw [hlookup_hinsert_ne _ _ _ _ hr] at hl
      obtain ⟨ho, hc⟩ := hw.hist r2 h2 hl
      exact ⟨List.mem_append_left _ ho,
        fun c hcm => List.mem_append_left _ (hc c hcm)⟩

theorem wf_getProxy (st : OGState) (x : Val) (o : Option EvTemplate)
    (hw : WfLog st) : WfLog (getProxy st x o).1 := by
  cases x with
  | obj r =>
    simp only [getProxy]
    cases hl : hlookup st.histories r with
    | some h => exact hw
    | none =>
      cases o with
      | none => exact hw
      | some t => exact wf_fresh st r t hw
  | fn r =>
    simp only [getProxy]
    cases hl : hlookup st.histories r with
    | some h => exact hw
    | none =>
      cases o with
      | none => exact hw
      | some t => exact wf_fresh st r t hw
  | undef => exact hw
  | boolv b => exact hw
  | numv n => exact hw
  | strv s => exact hw
  | symv i => exact hw
  | nullv => exact hw
  | proxyOf r => exact hw

theorem wf_pushChange (st : OGState) (r : Nat) (t : EvTemplate) (st2 : OGState)
    (hp : pushChange st r t = some st2) (hw : WfLog st) : WfLog st2 := by
  unfold pushChange at hp
  cases hl : hlookup st.histories r with
  | none => rw [hl] at hp; exact Option.noConfusion hp
  | some h =>
    rw [hl] at hp
    cases hp
    refine ⟨?_, wf_append_sorted st t hw, ?_⟩
    · intro e he
      rcases List.mem_append.mp he with he | he
      · exact Nat.lt_succ_of_lt (hw.bound e he)
      · have : e = mkEvent t st.seq := by simpa using he
        subst this
        exact Nat.lt_succ_self _
    · intro r2 h2 hl2
      obtain ⟨ho, hc⟩ := hw.hist r h hl
      by_cases hr : r = r2
      · subst hr
        rw [hlookup_hinsert_self] at hl2
        cases hl2
        refine ⟨List.mem_append_left _ ho, ?_⟩
        intro c hcm
        rcases List.mem_append.mp hcm with hcm | hcm
        · exact List.mem_append_left _ (hc c hcm)
        · exact List.mem_append_right _ hcm
      · rw [hlookup_hinsert_ne _ _ _ _ hr] at hl2
        obtain ⟨ho2, hc2⟩ := hw.hist r2 h2 hl2
        exact ⟨List.mem_append_left _ ho2,
          fun c hcm => List.mem_append_left _ (hc2 c hcm)⟩

theorem wf_trapStep (st : OGState) (op : TrapOp) (hw : WfLog st) :
    WfLog (trapStep st op).1 := by
  cases op with
  | getPrototypeOf target protoResult => exact wf_getProxy st _ _ hw
  | setPrototypeOf target v ok =>
    simp only [trapStep]
    cases hp : pushChange st target
        ⟨.setPrototypeOf, some (.obj target), none, some v, none, [], []⟩ with
    | none => exact hw
    | some st2 => exact wf_pushChange st target _ st2 hp hw
  | isExtensible target r => exact hw
  | preventExtensions target ok =>
    simp only [trapStep]
    cases hp : pushChange st target
        ⟨.preventExtensions, some (.obj target), none, none, none, [], []⟩ with
    | none => exact hw
    | some st2 => exact wf_pushChange st target _ st2 hp hw
  | getOwnPropertyDescriptor target p descResult => exact wf_getProxy st _ _ hw
  | getData target p value => exact wf_getProxy st _ _ hw
  | getAccessor target p result =>
    simp only [trapStep]
    cases hp : pushChange st target
        ⟨.get, some (.obj target), some p, none, none, [], []⟩ with
    | none => exact hw
    | some st2 => exact wf_getProxy st2 _ _ (wf_pushChange st target _ st2 hp hw)
  | getMissing target p result => exact wf_getProxy st _ _ hw
  | set target p v ok =>
    simp only [trapStep]
    cases hp : pushChange st target
        ⟨.set, some (.obj target), some p, some v, none, [], []⟩ with
    | none => exact hw
    | some st2 => exact wf_pushChange st target _ st2 hp hw
  | deleteProperty target p ok =>
    simp only [trapStep]
    cases hp : pushChange st target
        ⟨.deleteProperty, some (.obj target), some p, none, none, [], []⟩ with
    | none => exact hw
    | some st2 => exact wf_pushChange st target _ st2 hp hw
  | defineProperty target p descValues ok =>
    simp only [trapStep]
    cases hp : pushChange st target
        ⟨.defineProperty, some (.obj target), some p, none, none, [], descValues⟩ with
    | none => exact hw
    | some st2 => exact wf_pushChange st target _ st2 hp hw
  | apply target thisValue args result => exact wf_getProxy st _ _ hw
  | construct target args result => exact wf_getProxy st _ _ hw
  | externalGetProxy x origin => exact wf_getProxy st _ _ hw

theorem wf_run (ops : List TrapOp) (st : OGState) (hw : WfLog st) :
    WfLog (run st ops) := by
  induction ops generalizing st with
  | nil => exact hw
  | cons op rest ih => exact ih _ (wf_trapStep st op hw)

theorem pairwise_seq_inj {l : List Event}
    (h : List.Pairwise (fun a b => a.seq < b.seq) l) :
    ∀ e1 ∈ l, ∀ e2 ∈ l, e1.seq = e2.seq → e1 = e2 := by
  induction l with
  | nil => simp
  | cons a t ih =>
    intro e1 h1 e2 h2 heq
    obtain ⟨ha, ht⟩ := List.pairwise_cons.mp h
    rcases List.mem_cons.mp h1 with he1 | he1
    · rcases List.mem_cons.mp h2 with he2 | he2
      · rw [he1, he2]
      · exact absurd heq (by rw [he1]; have := ha e2 he2; omega)
    · rcases List.mem_cons.mp h2 with he2 | he2
      · exact absurd heq (by rw [he2]; have := ha e1 he1; omega)
      · exact ih ht e1 he1 e2 he2 heq

/-- **C3.**  Every event recorded over any run of the recorder (origin
events created in `getProxy_` and change events pushed by the traps) is
stamped with the counter value at the moment of its trap dispatch, and
these sequence numbers are strictly increasing in recording order, so
they totally order all events: every event of every history is in the
recording log, the log is strictly increasing in `seq`, and two
recorded events with the same `seq` are the same event. -/
theorem c3_seq_total_order (ops : List TrapOp) :
    List.Pairwise (fun a b => a.seq < b.seq) (run og0 ops).log ∧
    (∀ r h, hlookup (run og0 ops).histories r = some h →
        h.origin ∈ (run og0 ops).log ∧ ∀ c ∈ h.changes, c ∈ (run og0 ops).log) ∧
    (∀ e1 ∈ (run og0 ops).log, ∀ e2 ∈ (run og0 ops).log, e1.seq = e2.seq → e1 = e2) := by
  have hw := wf_run ops og0 wf_og0
  exact ⟨hw.sorted, hw.hist, pairwise_seq_inj hw.sorted⟩

/-- A short concrete run: wrap the global object, read `Object` off it,
then write property `x`. -/
def c3Ops : List TrapOp := [
  .externalGetProxy (.obj 0) (some ⟨.getGlobal, none, none, none, none, [], []⟩),
  .getData 0 "Object" (.fn 1),
  .set 0 "x" (.numv 1) true ]

/-- Witness for `c3_seq_total_order` at the concrete run `c3Ops`. -/
theorem c3_seq_total_order_witness :
    List.Pairwise (fun a b => a.seq < b.seq) (run og0 c3Ops).log ∧
    (mkEvent ⟨.getGlobal, none, none, none, none, [], []⟩ 0 ∈ (run og0 c3Ops).log ∧
     ∀ c ∈ [mkEvent ⟨.set, some (.obj 0), some "x", some (.numv 1), none, [], []⟩ 2],
       c ∈ (run og0 c3Ops).log) :=
  ⟨(c3_seq_total_order c3Ops).1,
   (c3_seq_total_order c3Ops).2.1 0
     ⟨mkEvent ⟨.getGlobal, none, none, none, none, [], []⟩ 0,
      [mkEvent ⟨.set, some (.obj 0), some "x", some (.numv 1), none, [], []⟩ 2]⟩
     (by decide)⟩

/-- **C9, counterexample.**  The claim says every symbol handed to
`getProxy` is wrapped, recording a recipe for its re-creation.  In the
source, `case 'symbol'` sits in the pass-through branch of the `typeof`
switch: the symbol is returned identically, unwrapped, with no history
created and no event recorded — whatever origin maker is supplied. -/
theorem c9_counterexample :
    getProxy og0 (.symv 0) none = (og0, some (.symv 0)) ∧
    (∀ o, getProxy og0 (.symv 0) o = (og0, some (.symv 0))) :=
  ⟨rfl, fun _ => rfl⟩

/-- **C9, amended.**  Booleans, numbers and strings — and likewise
symbols and undefined — pass through `getProxy` unwrapped: the value is
returned identically and the recorder state (counter, histories, log)
is unchanged, regardless of the origin argument. -/
theorem c9_passthrough (st : OGState) (x : Val) (o : Option EvTemplate)
    (h : (∃ b, x = .boolv b) ∨ (∃ n, x = .numv n) ∨ (∃ s, x = .strv s) ∨
         (∃ i, x = .symv i) ∨ x = .undef) :
    getProxy st x o = (st, some x) := by
  rcases h with ⟨b, rfl⟩ | ⟨n, rfl⟩ | ⟨s, rfl⟩ | ⟨i, rfl⟩ | rfl <;> rfl

/-- Witness for `c9_passthrough` at a concrete symbol. -/
theorem c9_passthrough_witness :
    ((∃ b, (Val.symv 5) = .boolv b) ∨ (∃ n, (Val.symv 5) = .numv n) ∨
     (∃ s, (Val.symv 5) = .strv s) ∨ (∃ i, (Val.symv 5) = .symv i) ∨
     (Val.symv 5) = .undef) ∧
    getProxy og0 (.symv 5) none = (og0, some (.symv 5)) :=
  ⟨Or.inr (Or.inr (Or.inr (Or.inl ⟨5, rfl⟩))),
   c9_passthrough og0 (.symv 5) none (Or.inr (Or.inr (Or.inr (Or.inl ⟨5, rfl⟩))))⟩

end OG

namespace OG

/-- **C10.**  Each of the five mutation traps (`set`, `deleteProperty`,
`defineProperty`, `setPrototypeOf`, `preventExtensions`) on a target
with a history appends the change event — stamped with the current
counter — to the target's history (and the log) before the underlying
`Reflect` operation is invoked: the trap passes the underlying verdict
`ok` through unchanged, and the event is recorded for every `ok`, in
particular when the underlying operation reports failure (`ok =
false`). -/
theorem c10_mutation_recorded_despite_failure (st : OGState) (target : Nat)
    (h : History) (hh : hlookup st.histories target = some h) :
    (∀ p v ok,
      (trapStep st (.set target p v ok)).2 = .ok (.boolv ok) ∧
      ∃ h2, hlookup (trapStep st (.set target p v ok)).1.histories target = some h2 ∧
        h2.changes = h.changes
          ++ [mkEvent ⟨.set, some (.obj target), some p, some v, none, [], []⟩ st.seq] ∧
        mkEvent ⟨.set, some (.obj target), some p, some v, none, [], []⟩ st.seq
          ∈ (trapStep st (.set target p v ok)).1.log) ∧
    (∀ p ok,
      (trapStep st (.deleteProperty target p ok)).2 = .ok (.boolv ok) ∧
      ∃ h2, hlookup (trapStep st (.deleteProperty target p ok)).1.histories target
          = some h2 ∧
        h2.changes = h.changes
          ++ [mkEvent ⟨.deleteProperty, some (.obj target), some p, none, none, [], []⟩
                st.seq] ∧
        mkEvent ⟨.deleteProperty, some (.obj target), some p, none, none, [], []⟩ st.seq
          ∈ (trapStep st (.deleteProperty target p ok)).1.log) ∧
    (∀ p dvs ok,
      (trapStep st (.defineProperty target p dvs ok)).2 = .ok (.boolv ok) ∧
      ∃ h2, hlookup (trapStep st (.defineProperty target p dvs ok)).1.histories target
          = some h2 ∧
        h2.changes = h.changes
          ++ [mkEvent ⟨.defineProperty, some (.obj target), some p, none, none, [], dvs⟩
                st.seq] ∧
        mkEvent ⟨.defineProperty, some (.obj target), some p, none, none, [], dvs⟩ st.seq
          ∈ (trapStep st (.defineProperty target p dvs ok)).1.log) ∧
    (∀ v ok,
      (trapStep st (.setPrototypeOf target v ok)).2 = .ok (.boolv ok) ∧
      ∃ h2, hlookup (trapStep st (.setPrototypeOf target v ok)).1.histories target
          = some h2 ∧
        h2.changes = h.changes
          ++ [mkEvent ⟨.setPrototypeOf, some (.obj target), none, some v, none, [], []⟩
                st.seq] ∧
        mkEvent ⟨.setPrototypeOf, some (.obj target), none, some v, none, [], []⟩ st.seq
          ∈ (trapStep st (.setPrototypeOf target v ok)).1.log) ∧
    (∀ ok,
      (trapStep st (.preventExtensions target ok)).2 = .ok (.boolv ok) ∧
      ∃ h2, hlookup (trapStep st (.preventExtensions target ok)).1.histories target
          = some h2 ∧
        h2.changes = h.changes
          ++ [mkEvent ⟨.preventExtensions, some (.obj target), none, none, none, [], []⟩
                st.seq] ∧
        mkEvent ⟨.preventExtensions, some (.obj target), none, none, none, [], []⟩ st.seq
          ∈ (trapStep st (.preventExtensions target ok)).1.log) := by
  refine ⟨fun p v ok => ?_, fun p ok => ?_, fun p dvs ok => ?_,
          fun v ok => ?_, fun ok => ?_⟩ <;>
    · refine ⟨by simp only [trapStep, pushChange, hh], ?_⟩
      simp only [trapStep, pushChange, hh]
      exact ⟨_, hlookup_hinsert_self .., rfl, List.mem_append_right _ (by simp)⟩

/-- A one-object recorder state for the `c10` witness. -/
def ogSt1 : OGState :=
  ⟨1, [(0, ⟨mkEvent ⟨.getGlobal, none, none, none, none, [], []⟩ 0, []⟩)],
   [mkEvent ⟨.getGlobal, none, none, none, none, [], []⟩ 0]⟩

/-- Witness for `c10_mutation_recorded_despite_failure`: a `set` trap on
a non-writable property — the underlying `Reflect.set` reports failure
(`ok = false`) — still appends the change event. -/
theorem c10_mutation_recorded_despite_failure_witness :
    hlookup ogSt1.histories 0
        = some ⟨mkEvent ⟨.getGlobal, none, none, none, none, [], []⟩ 0, []⟩ ∧
    ((trapStep ogSt1 (.set 0 "x" (.numv 1) false)).2 = .ok (.boolv false) ∧
      ∃ h2, hlookup (trapStep ogSt1 (.set 0 "x" (.numv 1) false)).1.histories 0
          = some h2 ∧
        h2.changes = ([] : List Event)
          ++ [mkEvent ⟨.set, some (.obj 0), some "x", some (.numv 1), none, [], []⟩
                ogSt1.seq] ∧
        mkEvent ⟨.set, some (.obj 0), some "x", some (.numv 1), none, [], []⟩ ogSt1.seq
          ∈ (trapStep ogSt1 (.set 0 "x" (.numv 1) false)).1.log) :=
  ⟨by decide,
   (c10_mutation_recorded_despite_failure ogSt1 0
      ⟨mkEvent ⟨.getGlobal, none, none, none, none, [], []⟩ 0, []⟩
      (by decide)).1 "x" (.numv 1) false⟩

end OG

namespace RW

/-- The `JobState` union of src/rewriter/job.ts. -/
inductive JState where
  | unstarted
  | started
  | satisfied
  | complete
  | error
deriving DecidableEq, Repr

/-- Diagnostic levels of the `CassandraEvent`s pushed by the walk. -/
inductive Level where
  | info
  | error
deriving DecidableEq, Repr

/-- The mutable job fields `checkCompleted` touches, over a finite job
graph with jobs `Fin n` (the static `deps` lists are passed
separately): per-job `state` and `recusrivelyDependsOnItself` flag, the
`progressComments` entries pushed during the walk (module and level),
and the `newlyCompleted` accumulator. -/
structure RState (n : Nat) where
  state : Fin n → JState
  flag : Fin n → Bool
  diags : List (Fin n × Level)
  newly : List (Fin n)
deriving DecidableEq

mutual

/-- `Rewriter.checkCompleted(job, checked, newlyCompleted)` of
src/rewriter/rewriter.ts.  The `checked` set is the `stack` list (the
caller adds the job before recursing, mirroring `checked.add(dep)` /
`checked.delete(dep)`).  Structural on fuel; `none` on fuel exhaustion
(the sufficiency bound is proved separately). -/
def checkCompleted {n : Nat} (deps : Fin n → List (Fin n)) (fuel : Nat)
    (st : RState n) (stack : List (Fin n)) (j : Fin n) : Option (RState n) :=
  match fuel with
  | 0 => none
  | fuel2 + 1 =>
    if st.state j ≠ .satisfied then some st
    else
      match goDeps deps fuel2 st stack j (deps j) with
      | none => none
      | some (st1, complete) =>
        if complete = true ∧ st1.state j = .satisfied then
          some { st1 with
                 state := Function.update st1.state j .complete,
                 newly := st1.newly ++ [j] }
        else some st1

/-- The `for (const dep of job.deps)` loop of `checkCompleted` with its
`continue` (dep on the walk stack: first-time flag set plus info
diagnostic) and `break` (dep not complete); returns the updated state
and the `complete` accumulator.  Also fuel-structural (one unit per
loop step) so that the mutual recursion is structural on `fuel`. -/
def goDeps {n : Nat} (deps : Fin n → List (Fin n)) (fuel : Nat)
    (st : RState n) (stack : List (Fin n)) (j : Fin n) (l : List (Fin n)) :
    Option (RState n × Bool) :=
  match fuel with
  | 0 => none
  | fuel2 + 1 =>
    match l with
    | [] => some (st, true)
    | d :: rest =>
      if d ∈ stack then
        goDeps deps fuel2
          (if st.flag d then st
           else { st with flag := Function.update st.flag d true,
                          diags := st.diags ++ [(d, .info)] })
          stack j rest
      else
        match (if st.state d = .satisfied
               then checkCompleted deps fuel2 st (d :: stack) d
               else some st) with
        | none => none
        | some st1 =>
          if st1.state d ≠ .complete then some (st1, false)
          else goDeps deps fuel2 st1 stack j rest

end

/-- Modelled from the spec: a job is completable for the current walk
when it is already `complete`, or it is `satisfied` and every dep is on
the current walk's stack (the cycle rule: such a dep is treated as
complete for this walk) or is itself completable with the dep pushed
onto the stack — i.e. every dep in the job's transitive closure,
ignoring cycles, is (or can become) complete. -/
def specCompletable {n : Nat} (deps : Fin n → List (Fin n))
    (st : Fin n → JState) (stack : Finset (Fin n)) (j : Fin n) : Bool :=
  st j == .complete ||
    (st j == .satisfied &&
      (deps j).all fun d =>
        if h : d ∈ stack then true
        else specCompletable deps st (insert d stack) d)
termination_by (Finset.univ \ stack).card
decreasing_by
  have hsub : Finset.univ \ insert d stack ⊆ Finset.univ \ stack :=
    Finset.sdiff_subset_sdiff (Finset.Subset.refl _) (Finset.subset_insert d stack)
  have hd : d ∈ Finset.univ \ stack := by simp [h]
  have hd2 : d ∉ Finset.univ \ insert d stack := by simp
  exact Finset.card_lt_card ((Finset.ssubset_iff_of_subset hsub).mpr ⟨d, hd, hd2⟩)

/-- Job states may only be upgraded from `satisfied` to `complete` by
the walk. -/
def Upg {n : Nat} (s1 s2 : Fin n → JState) : Prop :=
  ∀ k, s2 k = s1 k ∨ (s1 k = .satisfied ∧ s2 k = .complete)

theorem upg_refl {n : Nat} (s : Fin n → JState) : Upg s s := fun _ => Or.inl rfl

theorem upg_trans {n : Nat} {s1 s2 s3 : Fin n → JState}
    (h12 : Upg s1 s2) (h23 : Upg s2 s3) : Upg s1 s3 := by
  intro k
  rcases h23 k with h | ⟨ha, hb⟩
  · rw [h]; exact h12 k
  · rcases h12 k with h2 | ⟨hc, hd⟩
    · exact Or.inr ⟨h2 ▸ ha, hb⟩
    · exact Or.inr ⟨hc, hb⟩

theorem upg_complete {n : Nat} {s1 s2 : Fin n → JState} (h : Upg s1 s2)
    (k : Fin n) (hk : s1 k = .complete) : s2 k = .complete := by
  rcases h k with h2 | ⟨ha, _⟩
  · rw [h2, hk]
  · rw [ha] at hk; exact absurd hk (by simp)

theorem upg_satisfied_back {n : Nat} {s1 s2 : Fin n → JState} (h : Upg s1 s2)
    (k : Fin n) (hk : s2 k = .satisfied) : s1 k = .satisfied := by
  rcases h k with h2 | ⟨ha, hb⟩
  · rw [← h2, hk]
  · rw [hb] at hk; exact absurd hk (by simp)

end RW

namespace RW

/-- Frame and bookkeeping facts of one walk call, for `checkCompleted`
and `goDeps` simultaneously: states are only upgraded (`satisfied` →
`complete`); stack members other than the call's own job keep their
state (for the loop, all stack members do); the `recusrively…` flags
are monotone; diagnostics are only appended; and any newly set flag has
an info diagnostic recorded. -/
theorem frame_lemma {n : Nat} (deps : Fin n → List (Fin n)) (fuel : Nat) :
    (∀ st stack (j : Fin n) st2, checkCompleted deps fuel st stack j = some st2 →
      Upg st.state st2.state ∧
      (∀ k, k ∈ stack → k ≠ j → st2.state k = st.state k) ∧
      (∀ k, st.flag k = true → st2.flag k = true) ∧
      (∃ ds, st2.diags = st.diags ++ ds) ∧
      (∀ k, st2.flag k = true → st.flag k = true ∨ (k, Level.info) ∈ st2.diags)) ∧
    (∀ st stack (j : Fin n) l st2 b, goDeps deps fuel st stack j l = some (st2, b) →
      Upg st.state st2.state ∧
      (∀ k, k ∈ stack → st2.state k = st.state k) ∧
      (∀ k, st.flag k = true → st2.flag k = true) ∧
      (∃ ds, st2.diags = st.diags ++ ds) ∧
      (∀ k, st2.flag k = true → st.flag k = true ∨ (k, Level.info) ∈ st2.diags)) := by
  induction fuel with
  | zero =>
    constructor
    · intro st stack j st2 h
      exact absurd h (by simp [checkCompleted])
    · intro st stack j l st2 b h
      exact absurd h (by simp [goDeps])
  | succ fuel ih =>
    obtain ⟨ihC, ihG⟩ := ih
    constructor
    · intro st stack j st2 h
      rw [checkCompleted] at h
      by_cases hsat : st.state j = .satisfied
      · rw [if_neg (by simp [hsat])] at h
        cases hgo : goDeps deps fuel st stack j (deps j) with
        | none => rw [hgo] at h; exact absurd h (by simp)
        | some r =>
          obtain ⟨st1, b⟩ := r
          rw [hgo] at h
          dsimp only at h
          obtain ⟨hu, hframe, hfl, hds, hfd⟩ := ihG st stack j (deps j) st1 b hgo
          by_cases hcond : b = true ∧ st1.state j = .satisfied
          · rw [if_pos hcond] at h
            cases h
            refine ⟨?_, ?_, hfl, hds, hfd⟩
            · intro k
              by_cases hk : k = j
              · subst hk
                right
                exact ⟨hsat, by simp [Function.update]⟩
              · rcases hu k with h2 | ⟨ha, hb⟩
                · left
                  simpa [Function.update, hk] using h2
                · right
                  exact ⟨ha, by simpa [Function.update, hk] using hb⟩
            · intro k hk hkj
              simp only [Function.update, hkj, dif_neg]
              exact hframe k hk
          · rw [if_neg hcond] at h
            cases h
            exact ⟨hu, fun k hk _ => hframe k hk, hfl, hds, hfd⟩
      · rw [if_pos (by simp [hsat])] at h
        cases h
        exact ⟨upg_refl _, fun k _ _ => rfl, fun k hk => hk, ⟨[], by simp⟩,
          fun k hk => Or.inl hk⟩
    · intro st stack j l st2 b h
      rw [goDeps.eq_def] at h
      cases l with
      | nil =>
        simp only [Option.some.injEq, Prod.mk.injEq] at h
        obtain ⟨h1, h2⟩ := h
        subst h1
        exact ⟨upg_refl _, fun k _ => rfl, fun k hk => hk, ⟨[], by simp⟩,
          fun k hk => Or.inl hk⟩
      | cons d rest =>
        dsimp only at h
        by_cases hd : d ∈ stack
        · rw [if_pos hd] at h
          by_cases hflag : st.flag d
          · rw [if_pos hflag] at h
            exact ihG st stack j rest st2 b h
          · rw [if_neg hflag] at h
            obtain ⟨hu, hframe, hfl, hds, hfd⟩ := ihG _ stack j rest st2 b h
            obtain ⟨ds, hds2⟩ := hds
            refine ⟨hu, hframe, ?_, ⟨(d, Level.info) :: ds, by simpa using hds2⟩, ?_⟩
            · intro k hk
              exact hfl k (by simp [Function.update, hk])
            · intro k hk
              rcases hfd k hk with h2 | h2
              · by_cases hkd : k = d
                · subst hkd
                  right
                  rw [hds2]
                  simp
                · left
                  simpa [Function.update, hkd] using h2
              · right
                exact h2
        · rw [if_neg hd] at h
          by_cases hsd : st.state d = .satisfied
          · rw [if_pos hsd] at h
            cases hcc : checkCompleted deps fuel st (d :: stack) d with
            | none => rw [hcc] at h; exact absurd h (by simp)
            | some stA =>
              rw [hcc] at h
              dsimp only at h
              obtain ⟨huA, hframeA, hflA, hdsA, hfdA⟩ := ihC st (d :: stack) d stA hcc
              by_cases hAc : stA.state d ≠ .complete
              · rw [if_pos hAc] at h
                simp only [Option.some.injEq, Prod.mk.injEq] at h
                obtain ⟨h1, h2⟩ := h
                subst h1
                refine ⟨huA, ?_, hflA, hdsA, hfdA⟩
                intro k hk
                exact hframeA k (List.mem_cons_of_mem d hk)
                  (fun he => hd (he ▸ hk))
              · rw [if_neg hAc] at h
                obtain ⟨huB, hframeB, hflB, hdsB, hfdB⟩ := ihG stA stack j rest st2 b h
                obtain ⟨ds1, hds1⟩ := hdsA
                obtain ⟨ds2, hds2⟩ := hdsB
                refine ⟨upg_trans huA huB, ?_, fun k hk => hflB k (hflA k hk),
                  ⟨ds1 ++ ds2, by rw [hds2, hds1, List.append_assoc]⟩, ?_⟩
                · intro k hk
                  rw [hframeB k hk]
                  exact hframeA k (List.mem_cons_of_mem d hk) (fun he => hd (he ▸ hk))
                · intro k hk
                  rcases hfdB k hk with h2 | h2
                  · rcases hfdA k h2 with h3 | h3
                    · exact Or.inl h3
                    · right
                      rw [hds2]
                      exact List.mem_append_left _ h3
                  · exact Or.inr h2
          · rw [if_neg hsd] at h
            dsimp only at h
            by_cases hc : st.state d ≠ .complete
            · rw [if_pos hc] at h
              simp only [Option.some.injEq, Prod.mk.injEq] at h
              obtain ⟨h1, h2⟩ := h
              subst h1
              exact ⟨upg_refl _, fun k _ => rfl, fun k hk => hk, ⟨[], by simp⟩,
                fun k hk => Or.inl hk⟩
            · rw [if_neg hc] at h
              exact ihG st stack j rest st2 b h

end RW

namespace RW

theorem card_sdiff_insert_lt {n : Nat} {S : Finset (Fin n)} {d : Fin n} (hd : d ∉ S) :
    (Finset.univ \ insert d S).card < (Finset.univ \ S).card := by
  have hsub : Finset.univ \ insert d S ⊆ Finset.univ \ S :=
    Finset.sdiff_subset_sdiff (Finset.Subset.refl _) (Finset.subset_insert d S)
  have hdm : d ∈ Finset.univ \ S := by simp [hd]
  have hd2 : d ∉ Finset.univ \ insert d S := by simp
  exact Finset.card_lt_card ((Finset.ssubset_iff_of_subset hsub).mpr ⟨d, hdm, hd2⟩)

/-- The defining recurrence of `specCompletable`, in `Prop` form. -/
theorem spec_unfold {n : Nat} (deps : Fin n → List (Fin n)) (st : Fin n → JState)
    (S : Finset (Fin n)) (j : Fin n) :
    specCompletable deps st S j = true ↔
      st j = .complete ∨
      (st j = .satisfied ∧ ∀ d ∈ deps j,
        d ∈ S ∨ specCompletable deps st (insert d S) d = true) := by
  rw [specCompletable]
  simp only [Bool.or_eq_true, Bool.and_eq_true, beq_iff_eq, List.all_eq_true]
  apply or_congr Iff.rfl
  apply and_congr Iff.rfl
  constructor
  · intro hall d hd
    have h2 := hall d hd
    by_cases hm : d ∈ S
    · exact Or.inl hm
    · right; simpa [hm] using h2
  · intro hall d hd
    by_cases hm : d ∈ S
    · simp [hm]
    · rcases hall d hd with h2 | h2
      · exact absurd h2 hm
      · simpa [hm] using h2

/-- Marking satisfied jobs complete can only help completability. -/
theorem spec_mono_upg {n : Nat} (deps : Fin n → List (Fin n))
    {s1 s2 : Fin n → JState} (hu : Upg s1 s2) :
    ∀ (S : Finset (Fin n)) (j : Fin n),
      specCompletable deps s1 S j = true → specCompletable deps s2 S j = true := by
  have main : ∀ (m : Nat) (S : Finset (Fin n)) (j : Fin n),
      (Finset.univ \ S).card ≤ m →
      specCompletable deps s1 S j = true → specCompletable deps s2 S j = true := by
    intro m
    induction m with
    | zero =>
      intro S j hm h
      rw [spec_unfold] at h ⊢
      rcases h with h | ⟨hsat, hall⟩
      · exact Or.inl (upg_complete hu j h)
      · rcases hu j with h2 | ⟨h2a, h2b⟩
        · refine Or.inr ⟨h2 ▸ hsat, fun d hd => ?_⟩
          rcases hall d hd with h3 | h3
          · exact Or.inl h3
          · by_cases hdm : d ∈ S
            · exact Or.inl hdm
            · exact absurd (Nat.le_zero.mp hm) (by
                have := card_sdiff_insert_lt hdm; omega)
        · exact Or.inl h2b
    | succ m ih =>
      intro S j hm h
      rw [spec_unfold] at h ⊢
      rcases h with h | ⟨hsat, hall⟩
      · exact Or.inl (upg_complete hu j h)
      · rcases hu j with h2 | ⟨h2a, h2b⟩
        · refine Or.inr ⟨h2 ▸ hsat, fun d hd => ?_⟩
          rcases hall d hd with h3 | h3
          · exact Or.inl h3
          · by_cases hdm : d ∈ S
            · exact Or.inl hdm
            · refine Or.inr (ih (insert d S) d ?_ h3)
              have := card_sdiff_insert_lt (S := S) (d := d) hdm
              omega
        · exact Or.inl h2b
  intro S j
  exact main (Finset.univ \ S).card S j (le_refl _)

end RW

namespace RW

/-- Completeness of the walk: a job that is completable per the
declarative predicate gets marked complete, and a dep list whose
members are all on the stack or completable never breaks the loop. -/
theorem complete_of_spec {n : Nat} (deps : Fin n → List (Fin n)) (fuel : Nat) :
    (∀ st stack (j : Fin n) st2, j ∈ stack →
      checkCompleted deps fuel st stack j = some st2 →
      specCompletable deps st.state stack.toFinset j = true →
      st2.state j = .complete) ∧
    (∀ st stack (j : Fin n) l st2 b, goDeps deps fuel st stack j l = some (st2, b) →
      (∀ d ∈ l, d ∈ stack ∨
        specCompletable deps st.state (insert d stack.toFinset) d = true) →
      b = true) := by
  induction fuel with
  | zero =>
    constructor
    · intro st stack j st2 hj h
      exact absurd h (by simp [checkCompleted])
    · intro st stack j l st2 b h
      exact absurd h (by simp [goDeps])
  | succ fuel ih =>
    obtain ⟨ihC, ihG⟩ := ih
    constructor
    · intro st stack j st2 hj h hspec
      rw [checkCompleted] at h
      by_cases hsat : st.state j = .satisfied
      · rw [if_neg (by simp [hsat])] at h
        cases hgo : goDeps deps fuel st stack j (deps j) with
        | none => rw [hgo] at h; exact absurd h (by simp)
        | some r =>
          obtain ⟨st1, b⟩ := r
          rw [hgo] at h
          dsimp only at h
          have hb : b = true := by
            refine ihG st stack j (deps j) st1 b hgo ?_
            intro d hd
            rcases (spec_unfold deps st.state stack.toFinset j).mp hspec with h2 | ⟨_, hall⟩
            · exact absurd h2 (by simp [hsat])
            · rcases hall d hd with h3 | h3
              · exact Or.inl (List.mem_toFinset.mp h3)
              · exact Or.inr h3
          have hframe := ((frame_lemma deps fuel).2 st stack j (deps j) st1 b hgo).2.1
          have hj1 : st1.state j = .satisfied := by rw [hframe j hj]; exact hsat
          rw [if_pos ⟨hb, hj1⟩] at h
          cases h
          simp [Function.update]
      · rw [if_pos (by simp [hsat])] at h
        cases h
        rcases (spec_unfold deps st.state stack.toFinset j).mp hspec with h2 | ⟨h2, _⟩
        · exact h2
        · exact absurd h2 hsat
    · intro st stack j l st2 b h hall
      rw [goDeps.eq_def] at h
      cases l with
      | nil =>
        simp only [Option.some.injEq, Prod.mk.injEq] at h
        exact h.2.symm
      | cons d rest =>
        dsimp only at h
        by_cases hd : d ∈ stack
        · rw [if_pos hd] at h
          refine ihG _ stack j rest st2 b h ?_
          have hstate : (if st.flag d = true then st
              else { st with flag := Function.update st.flag d true,
                             diags := st.diags ++ [(d, Level.info)] }).state = st.state := by
            by_cases hf : st.flag d = true <;> simp [hf]
          rw [hstate]
          intro d2 hd2
          exact hall d2 (List.mem_cons_of_mem d hd2)
        · rw [if_neg hd] at h
          have hsd2 : specCompletable deps st.state (insert d stack.toFinset) d = true := by
            rcases hall d (List.mem_cons_self d rest) with h2 | h2
            · exact absurd h2 hd
            · exact h2
          by_cases hsd : st.state d = .satisfied
          · rw [if_pos hsd] at h
            cases hcc : checkCompleted deps fuel st (d :: stack) d with
            | none => rw [hcc] at h; exact absurd h (by simp)
            | some stA =>
              rw [hcc] at h
              dsimp only at h
              have hAc : stA.state d = .complete := by
                refine ihC st (d :: stack) d stA (List.mem_cons_self d stack) hcc ?_
                rw [List.toFinset_cons]
                exact hsd2
              rw [if_neg (by simp [hAc])] at h
              refine ihG stA stack j rest st2 b h ?_
              intro d2 hd2
              rcases hall d2 (List.mem_cons_of_mem d hd2) with h2 | h2
              · exact Or.inl h2
              · right
                have hu := ((frame_lemma deps fuel).1 st (d :: stack) d stA hcc).1
                exact spec_mono_upg deps hu _ d2 h2
          · rw [if_neg hsd] at h
            dsimp only at h
            have hc : st.state d = .complete := by
              rcases (spec_unfold deps st.state (insert d stack.toFinset) d).mp hsd2
                with h2 | ⟨h2, _⟩
              · exact h2
              · exact absurd h2 hsd
            rw [if_neg (by simp [hc])] at h
            refine ihG st stack j rest st2 b h ?_
            intro d2 hd2
            exact hall d2 (List.mem_cons_of_mem d hd2)

end RW

namespace RW

/-- Soundness of the walk: when a call marks its job complete, every job
complete afterwards was either already complete, or was satisfied with
every dep either complete afterwards or on the call's stack; and a loop
run that returns `complete = true` left every processed dep on the
stack or complete. -/
theorem cert_of_complete {n : Nat} (deps : Fin n → List (Fin n)) (fuel : Nat) :
    (∀ st stack (j : Fin n) st2, j ∈ stack →
      checkCompleted deps fuel st stack j = some st2 →
      st2.state j = .complete →
      ∀ k, st2.state k = .complete →
        st.state k = .complete ∨
        (st.state k = .satisfied ∧ ∀ d ∈ deps k, st2.state d = .complete ∨ d ∈ stack)) ∧
    (∀ st stack (j : Fin n) l st2, goDeps deps fuel st stack j l = some (st2, true) →
      ((∀ k, st2.state k = .complete →
        st.state k = .complete ∨
        (st.state k = .satisfied ∧ ∀ d ∈ deps k, st2.state d = .complete ∨ d ∈ stack)) ∧
       (∀ d ∈ l, d ∈ stack ∨ st2.state d = .complete))) := by
  induction fuel with
  | zero =>
    constructor
    · intro st stack j st2 hj h
      exact absurd h (by simp [checkCompleted])
    · intro st stack j l st2 h
      exact absurd h (by simp [goDeps])
  | succ fuel ih =>
    obtain ⟨ihC, ihG⟩ := ih
    constructor
    · intro st stack j st2 hj h hjc
      rw [checkCompleted] at h
      by_cases hsat : st.state j = .satisfied
      · rw [if_neg (by simp [hsat])] at h
        cases hgo : goDeps deps fuel st stack j (deps j) with
        | none => rw [hgo] at h; exact absurd h (by simp)
        | some r =>
          obtain ⟨st1, b⟩ := r
          rw [hgo] at h
          dsimp only at h
          have hframe := ((frame_lemma deps fuel).2 st stack j (deps j) st1 b hgo).2.1
          have hj1 : st1.state j = .satisfied := by rw [hframe j hj]; exact hsat
          by_cases hcond : b = true ∧ st1.state j = .satisfied
          · rw [if_pos hcond] at h
            cases h
            have hb : b = true := hcond.1
            subst hb
            obtain ⟨hcert, hextra⟩ := ihG st stack j (deps j) st1 hgo
            intro k hk
            by_cases hkj : k = j
            · subst hkj
              refine Or.inr ⟨hsat, fun d hd => ?_⟩
              rcases hextra d hd with h2 | h2
              · exact Or.inr h2
              · left
                by_cases hdj : d = k
                · subst hdj; simp [Function.update]
                · simpa [Function.update, hdj] using h2
            · have hk1 : st1.state k = .complete := by
                simpa [Function.update, hkj] using hk
              rcases hcert k hk1 with h2 | ⟨h2a, h2b⟩
              · exact Or.inl h2
              · refine Or.inr ⟨h2a, fun d hd => ?_⟩
                rcases h2b d hd with h3 | h3
                · left
                  by_cases hdj : d = j
                  · subst hdj; simp [Function.update]
                  · simpa [Function.update, hdj] using h3
                · exact Or.inr h3
          · rw [if_neg hcond] at h
            cases h
            rw [hjc] at hj1
            exact absurd hj1 (by simp)
      · rw [if_pos (by simp [hsat])] at h
        cases h
        intro k hk
        exact Or.inl hk
    · intro st stack j l st2 h
      rw [goDeps.eq_def] at h
      cases l with
      | nil =>
        simp only [Option.some.injEq, Prod.mk.injEq] at h
        obtain ⟨h1, -⟩ := h
        subst h1
        exact ⟨fun k hk => Or.inl hk, by simp⟩
      | cons d rest =>
        dsimp only at h
        by_cases hd : d ∈ stack
        · rw [if_pos hd] at h
          have hstate : (if st.flag d = true then st
              else { st with flag := Function.update st.flag d true,
                             diags := st.diags ++ [(d, Level.info)] }).state = st.state := by
            by_cases hf : st.flag d = true <;> simp [hf]
          obtain ⟨hcert, hextra⟩ := ihG _ stack j rest st2 h
          rw [hstate] at hcert
          refine ⟨hcert, ?_⟩
          intro d2 hd2
          rcases List.mem_cons.mp hd2 with rfl | hd2
          · exact Or.inl hd
          · exact hextra d2 hd2
        · rw [if_neg hd] at h
          by_cases hsd : st.state d = .satisfied
          · rw [if_pos hsd] at h
            cases hcc : checkCompleted deps fuel st (d :: stack) d with
            | none => rw [hcc] at h; exact absurd h (by simp)
            | some stA =>
              rw [hcc] at h
              dsimp only at h
              by_cases hAc : stA.state d ≠ .complete
              · rw [if_pos hAc] at h
                simp only [Option.some.injEq, Prod.mk.injEq] at h
                exact absurd h.2 (by simp)
              · rw [if_neg hAc] at h
                push_neg at hAc
                obtain ⟨hcertB, hextraB⟩ := ihG stA stack j rest st2 h
                have hcertA := ihC st (d :: stack) d stA (List.mem_cons_self d stack)
                  hcc hAc
                have huB := ((frame_lemma deps fuel).2 stA stack j rest st2 true h).1
                have huA := ((frame_lemma deps fuel).1 st (d :: stack) d stA hcc).1
                have hd2c : st2.state d = .complete := upg_complete huB d hAc
                constructor
                · intro k hk
                  rcases hcertB k hk with h2 | ⟨h2a, h2b⟩
                  · rcases hcertA k h2 with h3 | ⟨h3a, h3b⟩
                    · exact Or.inl h3
                    · refine Or.inr ⟨h3a, fun d2 hd2 => ?_⟩
                      rcases h3b d2 hd2 with h4 | h4
                      · exact Or.inl (upg_complete huB d2 h4)
                      · rcases List.mem_cons.mp h4 with rfl | h4
                        · exact Or.inl hd2c
                        · exact Or.inr h4
                  · exact Or.inr ⟨upg_satisfied_back huA k h2a, h2b⟩
                · intro d2 hd2
                  rcases List.mem_cons.mp hd2 with rfl | hd2
                  · exact Or.inr hd2c
                  · exact hextraB d2 hd2
          · rw [if_neg hsd] at h
            dsimp only at h
            by_cases hc : st.state d ≠ .complete
            · rw [if_pos hc] at h
              simp only [Option.some.injEq, Prod.mk.injEq] at h
              exact absurd h.2 (by simp)
            · rw [if_neg hc] at h
              push_neg at hc
              obtain ⟨hcertB, hextraB⟩ := ihG st stack j rest st2 h
              have huB := ((frame_lemma deps fuel).2 st stack j rest st2 true h).1
              refine ⟨hcertB, ?_⟩
              intro d2 hd2
              rcases List.mem_cons.mp hd2 with rfl | hd2
              · exact Or.inr (upg_complete huB d2 hc)
              · exact hextraB d2 hd2

end RW

namespace RW

/-- From the soundness certification of a finished root walk (stack
`[j0]`) back to the declarative predicate: any job complete in the final
state, taken with any stack containing it, is completable in the
initial state. -/
theorem spec_of_closed {n : Nat} (deps : Fin n → List (Fin n))
    (s0 sf : Fin n → JState) (j0 : Fin n)
    (hc : ∀ k, sf k = .complete →
      s0 k = .complete ∨ (s0 k = .satisfied ∧ ∀ d ∈ deps k, sf d = .complete ∨ d = j0))
    (hj0 : sf j0 = .complete) :
    ∀ (m : Nat) (S : Finset (Fin n)) (k : Fin n), (Finset.univ \ S).card ≤ m →
      sf k = .complete → k ∈ S → specCompletable deps s0 S k = true := by
  intro m
  induction m with
  | zero =>
    intro S k hm hk hkS
    rw [spec_unfold]
    rcases hc k hk with h | ⟨h1, h2⟩
    · exact Or.inl h
    · refine Or.inr ⟨h1, fun d hd => ?_⟩
      by_cases hdm : d ∈ S
      · exact Or.inl hdm
      · exact absurd (Nat.le_zero.mp hm) (by
          have := card_sdiff_insert_lt hdm; omega)
  | succ m ih =>
    intro S k hm hk hkS
    rw [spec_unfold]
    rcases hc k hk with h | ⟨h1, h2⟩
    · exact Or.inl h
    · refine Or.inr ⟨h1, fun d hd => ?_⟩
      by_cases hdm : d ∈ S
      · exact Or.inl hdm
      · have hdc : sf d = .complete := by
          rcases h2 d hd with h3 | h3
          · exact h3
          · rw [h3]; exact hj0
        refine Or.inr (ih (insert d S) d ?_ hdc (Finset.mem_insert_self d S))
        have := card_sdiff_insert_lt (S := S) (d := d) hdm
        omega

/-- **C4.**  For a completion walk started by `checkSatisfied` on job
`j` (stack `new Set([job])`): the walk marks `j` complete precisely
when `j` is completable — already complete, or satisfied with every dep
in its transitive closure, ignoring cycles, complete or completable —
where a dep met on the current walk's stack is treated as complete for
that walk (`specCompletable`'s stack rule).  Moreover the walk's
`recusrivelyDependsOnItself` flags are monotone, and every flag the walk
newly sets has an info-level diagnostic recorded in the progress
comments, which only grow. -/
theorem c4_completion_walk {n : Nat} (deps : Fin n → List (Fin n)) (fuel : Nat)
    (st : RState n) (j : Fin n) (st2 : RState n)
    (hrun : checkCompleted deps fuel st [j] j = some st2) :
    (st2.state j = .complete ↔ specCompletable deps st.state {j} j = true) ∧
    (∀ k, st.flag k = true → st2.flag k = true) ∧
    (∀ k, st2.flag k = true → st.flag k = true ∨ (k, Level.info) ∈ st2.diags) ∧
    (∃ ds, st2.diags = st.diags ++ ds) := by
  obtain ⟨hu, hframe, hfl, hds, hfd⟩ := (frame_lemma deps fuel).1 st [j] j st2 hrun
  refine ⟨⟨?_, ?_⟩, hfl, hfd, hds⟩
  · intro hc
    have hcert := (cert_of_complete deps fuel).1 st [j] j st2
      (List.mem_singleton.mpr rfl) hrun hc
    have hcert2 : ∀ k, st2.state k = .complete →
        st.state k = .complete ∨ (st.state k = .satisfied ∧
          ∀ d ∈ deps k, st2.state d = .complete ∨ d = j) := by
      intro k hk
      rcases hcert k hk with h | ⟨h1, h2⟩
      · exact Or.inl h
      · refine Or.inr ⟨h1, fun d hd => ?_⟩
        rcases h2 d hd with h3 | h3
        · exact Or.inl h3
        · exact Or.inr (List.mem_singleton.mp h3)
    exact spec_of_closed deps st.state st2.state j hcert2 hc
      (Finset.univ \ {j}).card {j} j (le_refl _) hc (Finset.mem_singleton_self j)
  · intro hspec
    refine (complete_of_spec deps fuel).1 st [j] j st2
      (List.mem_singleton.mpr rfl) hrun ?_
    simpa using hspec

/-- The two-job cycle used as the `c4` witness: `deps 0 = [1]`,
`deps 1 = [0]`, both satisfied (e.g. two modules re-exporting each
other). -/
def depsCycle : Fin 2 → List (Fin 2) := fun i => if i = 0 then [1] else [0]

def stCycle : RState 2 := ⟨fun _ => .satisfied, fun _ => false, [], []⟩

/-- Witness for `c4_completion_walk` on the two-job cycle: the walk
completes job 0 (and `specCompletable` agrees), and the dep met on the
walk stack got its recursive-self-dependency flag set with an info
diagnostic. -/
theorem c4_completion_walk_witness :
    checkCompleted depsCycle 9 stCycle [0] 0
        = some ((checkCompleted depsCycle 9 stCycle [0] 0).getD stCycle) ∧
    (((checkCompleted depsCycle 9 stCycle [0] 0).getD stCycle).state 0 = .complete ↔
      specCompletable depsCycle stCycle.state {0} 0 = true) ∧
    ((checkCompleted depsCycle 9 stCycle [0] 0).getD stCycle).state 0 = .complete ∧
    specCompletable depsCycle stCycle.state {0} 0 = true ∧
    ((checkCompleted depsCycle 9 stCycle [0] 0).getD stCycle).flag 0 = true ∧
    (0, Level.info) ∈ ((checkCompleted depsCycle 9 stCycle [0] 0).getD stCycle).diags := by
  refine ⟨by decide, ?_, by decide, ?_, by decide, by decide⟩
  · exact (c4_completion_walk depsCycle 9 stCycle 0
      ((checkCompleted depsCycle 9 stCycle [0] 0).getD stCycle) (by decide)).1
  · rw [specCompletable]
    simp [depsCycle, stCycle]
    rw [specCompletable]
    simp [depsCycle, stCycle]

end RW

namespace RW

/-- Fuel monotonicity: a result obtained with some fuel persists with
one more unit. -/
theorem fuel_mono {n : Nat} (deps : Fin n → List (Fin n)) (fuel : Nat) :
    (∀ st stack (j : Fin n) r, checkCompleted deps fuel st stack j = some r →
      checkCompleted deps (fuel + 1) st stack j = some r) ∧
    (∀ st stack (j : Fin n) l rb, goDeps deps fuel st stack j l = some rb →
      goDeps deps (fuel + 1) st stack j l = some rb) := by
  induction fuel with
  | zero =>
    constructor
    · intro st stack j r h
      exact absurd h (by simp [checkCompleted])
    · intro st stack j l rb h
      exact absurd h (by simp [goDeps])
  | succ fuel ih =>
    obtain ⟨ihC, ihG⟩ := ih
    constructor
    · intro st stack j r h
      rw [checkCompleted] at h
      rw [checkCompleted]
      by_cases hsat : st.state j = .satisfied
      · rw [if_neg (by simp [hsat])] at h ⊢
        cases hgo : goDeps deps fuel st stack j (deps j) with
        | none => rw [hgo] at h; exact absurd h (by simp)
        | some rb =>
          rw [hgo] at h
          rw [ihG st stack j (deps j) rb hgo]
          exact h
      · rw [if_pos (by simp [hsat])] at h ⊢
        exact h
    · intro st stack j l rb h
      rw [goDeps.eq_def] at h
      rw [goDeps.eq_def]
      cases l with
      | nil => exact h
      | cons d rest =>
        dsimp only at h ⊢
        by_cases hd : d ∈ stack
        · rw [if_pos hd] at h ⊢
          exact ihG _ stack j rest rb h
        · rw [if_neg hd] at h ⊢
          by_cases hsd : st.state d = .satisfied
          · rw [if_pos hsd] at h ⊢
            cases hcc : checkCompleted deps fuel st (d :: stack) d with
            | none => rw [hcc] at h; exact absurd h (by simp)
            | some stA =>
              rw [hcc] at h
              rw [ihC st (d :: stack) d stA hcc]
              dsimp only at h ⊢
              by_cases hAc : stA.state d ≠ .complete
              · rw [if_pos hAc] at h ⊢; exact h
              · rw [if_neg hAc] at h ⊢
                exact ihG stA stack j rest rb h
          · rw [if_neg hsd] at h ⊢
            dsimp only at h ⊢
            by_cases hc : st.state d ≠ .complete
            · rw [if_pos hc] at h ⊢; exact h
            · rw [if_neg hc] at h ⊢
              exact ihG st stack j rest rb h

theorem fuel_mono_le {n : Nat} (deps : Fin n → List (Fin n)) {fuel fuel2 : Nat}
    (hle : fuel ≤ fuel2) :
    (∀ st stack (j : Fin n) r, checkCompleted deps fuel st stack j = some r →
      checkCompleted deps fuel2 st stack j = some r) ∧
    (∀ st stack (j : Fin n) l rb, goDeps deps fuel st stack j l = some rb →
      goDeps deps fuel2 st stack j l = some rb) := by
  induction fuel2 with
  | zero =>
    have : fuel = 0 := Nat.le_zero.mp hle
    subst this
    exact ⟨fun st stack j r h => h, fun st stack j l rb h => h⟩
  | succ f2 ih =>
    by_cases heq : fuel = f2 + 1
    · subst heq
      exact ⟨fun st stack j r h => h, fun st stack j l rb h => h⟩
    · have hle2 : fuel ≤ f2 := by omega
      obtain ⟨ihC, ihG⟩ := ih hle2
      exact ⟨fun st stack j r h => (fuel_mono deps f2).1 st stack j r (ihC st stack j r h),
             fun st stack j l rb h => (fuel_mono deps f2).2 st stack j l rb (ihG st stack j l rb h)⟩

/-- Some fuel always suffices: every walk invocation terminates with a
result (the real recursion terminates because every recursive call
pushes a fresh job onto the walk stack). -/
theorem walk_defined {n : Nat} (deps : Fin n → List (Fin n)) :
    ∀ (m : Nat) (stack : List (Fin n)),
      (Finset.univ \ stack.toFinset).card ≤ m →
      (∀ (st : RState n) (j : Fin n), ∃ fuel r,
        checkCompleted deps fuel st stack j = some r) ∧
      (∀ (st : RState n) (j : Fin n) (l : List (Fin n)), ∃ fuel rb,
        goDeps deps fuel st stack j l = some rb) := by
  intro m
  induction m with
  | zero =>
    intro stack hm
    have hgo : ∀ (st : RState n) (j : Fin n) (l : List (Fin n)), ∃ fuel rb,
        goDeps deps fuel st stack j l = some rb := by
      intro st j l
      induction l generalizing st with
      | nil => exact ⟨1, (st, true), by rw [goDeps.eq_def]⟩
      | cons d rest ihl =>
        by_cases hd : d ∈ stack
        · obtain ⟨fuel, rb, hrb⟩ := ihl
            (if st.flag d = true then st
             else { st with flag := Function.update st.flag d true,
                            diags := st.diags ++ [(d, Level.info)] })
          refine ⟨fuel + 1, rb, ?_⟩
          rw [goDeps.eq_def]
          dsimp only
          rw [if_pos hd]
          exact hrb
        · exfalso
          have hdm : d ∉ stack.toFinset := fun hx => hd (List.mem_toFinset.mp hx)
          have := card_sdiff_insert_lt hdm
          omega
    refine ⟨?_, hgo⟩
    intro st j
    by_cases hsat : st.state j = .satisfied
    · obtain ⟨fuel, ⟨st1, b⟩, hrb⟩ := hgo st j (deps j)
      refine ⟨fuel + 1, ?_, ?_⟩
      · exact if b = true ∧ st1.state j = .satisfied then
          { st1 with state := Function.update st1.state j .complete,
                     newly := st1.newly ++ [j] } else st1
      · rw [checkCompleted]
        rw [if_neg (by simp [hsat])]
        rw [hrb]
        dsimp only
        by_cases hcond : b = true ∧ st1.state j = .satisfied
        · rw [if_pos hcond, if_pos hcond]
        · rw [if_neg hcond, if_neg hcond]
    · exact ⟨1, st, by rw [checkCompleted]; rw [if_pos (by simp [hsat])]⟩
  | succ m ihm =>
    intro stack hm
    have hgo : ∀ (st : RState n) (j : Fin n) (l : List (Fin n)), ∃ fuel rb,
        goDeps deps fuel st stack j l = some rb := by
      intro st j l
      induction l generalizing st with
      | nil => exact ⟨1, (st, true), by rw [goDeps.eq_def]⟩
      | cons d rest ihl =>
        by_cases hd : d ∈ stack
        · obtain ⟨fuel, rb, hrb⟩ := ihl
            (if st.flag d = true then st
             else { st with flag := Function.update st.flag d true,
                            diags := st.diags ++ [(d, Level.info)] })
          refine ⟨fuel + 1, rb, ?_⟩
          rw [goDeps.eq_def]
          dsimp only
          rw [if_pos hd]
          exact hrb
        · have hdm : d ∉ stack.toFinset := fun hx => hd (List.mem_toFinset.mp hx)
          have hcard : (Finset.univ \ (d :: stack).toFinset).card ≤ m := by
            rw [List.toFinset_cons]
            have := card_sdiff_insert_lt hdm
            omega
          by_cases hsd : st.state d = .satisfied
          · obtain ⟨fuelA, stA, hA⟩ := (ihm (d :: stack) hcard).1 st d
            by_cases hAc : stA.state d ≠ .complete
            · refine ⟨fuelA + 1, (stA, false), ?_⟩
              rw [goDeps.eq_def]
              dsimp only
              rw [if_neg hd, if_pos hsd, hA]
              dsimp only
              rw [if_pos hAc]
            · obtain ⟨fuelB, rb, hB⟩ := ihl stA
              refine ⟨max fuelA fuelB + 1, rb, ?_⟩
              rw [goDeps.eq_def]
              dsimp only
              rw [if_neg hd, if_pos hsd,
                (fuel_mono_le deps (Nat.le_max_left fuelA fuelB)).1 st (d :: stack) d stA hA]
              dsimp only
              rw [if_neg hAc]
              exact (fuel_mono_le deps (Nat.le_max_right fuelA fuelB)).2 stA stack j rest rb hB
          · by_cases hc : st.state d ≠ .complete
            · refine ⟨1, (st, false), ?_⟩
              rw [goDeps.eq_def]
              dsimp only
              rw [if_neg hd, if_neg hsd]
              dsimp only
              rw [if_pos hc]
            · obtain ⟨fuelB, rb, hB⟩ := ihl st
              refine ⟨fuelB + 1, rb, ?_⟩
              rw [goDeps.eq_def]
              dsimp only
              rw [if_neg hd, if_neg hsd]
              dsimp only
              rw [if_neg hc]
              exact hB
    refine ⟨?_, hgo⟩
    intro st j
    by_cases hsat : st.state j = .satisfied
    · obtain ⟨fuel, ⟨st1, b⟩, hrb⟩ := hgo st j (deps j)
      refine ⟨fuel + 1, ?_, ?_⟩
      · exact if b = true ∧ st1.state j = .satisfied then
          { st1 with state := Function.update st1.state j .complete,
                     newly := st1.newly ++ [j] } else st1
      · rw [checkCompleted]
        rw [if_neg (by simp [hsat])]
        rw [hrb]
        dsimp only
        by_cases hcond : b = true ∧ st1.state j = .satisfied
        · rw [if_pos hcond, if_pos hcond]
        · rw [if_neg hcond, if_neg hcond]
    · exact ⟨1, st, by rw [checkCompleted]; rw [if_pos (by simp [hsat])]⟩

/-- The `hrun` hypothesis of `c4_completion_walk` is always satisfiable:
for every graph, state and root job there is enough fuel. -/
theorem c4_walk_defined {n : Nat} (deps : Fin n → List (Fin n))
    (st : RState n) (j : Fin n) :
    ∃ fuel st2, checkCompleted deps fuel st [j] j = some st2 :=
  (walk_defined deps (Finset.univ \ [j].toFinset).card [j] (le_refl _)).1 st j

end RW
